import Mathlib

/-!
Verification of the deterministic text post-processing helpers of the
blog-post generator in `src/app.py`:

* `normalize_spaces`   — colon spacing, trailing-blank removal, blank-line
  collapsing, final trim (three `re.sub` passes and `strip`);
* `ensure_hashtags_30` — hashtag curation (required, keyword-derived and
  filler tags, case-insensitive dedup, cap at 30);
* `split_title_and_body` / `strip_title_prefix` — title extraction with a
  caller-supplied fallback;
* `md_to_html_for_naver` — the minimal Markdown-to-HTML converter
  (headings, blockquotes, single bullets, pipe tables, paragraph escaping).

Strings are embedded as `List Char` (Python strings are sequences of code
points).  Each Python regex substitution is embedded as a recursive scan
that mirrors the `re` module's leftmost, non-overlapping semantics; the
whitespace class below is exactly the set matched by Python's `\s` for
`str` patterns, which coincides with the set stripped by `str.strip`.
-/

set_option maxRecDepth 4000

/-- Python string type: a sequence of Unicode code points. -/
abbrev Str : Type := List Char

/-- Python whitespace (the `\s` class for `str` regexes, identical to the
`str.isspace` / `str.strip` character set). -/
def pyWs (c : Char) : Bool :=
  let n := c.toNat
  n == 32 || n == 9 || n == 10 || n == 13 || n == 11 || n == 12 ||
  n == 28 || n == 29 || n == 30 || n == 31 || n == 133 || n == 160 ||
  n == 5760 || n == 8192 || n == 8193 || n == 8194 || n == 8195 ||
  n == 8196 || n == 8197 || n == 8198 || n == 8199 || n == 8200 ||
  n == 8201 || n == 8202 || n == 8232 || n == 8233 || n == 8239 ||
  n == 8287 || n == 12288

/-- The character class `[가-힣A-Za-z0-9]` of the colon-spacing regex in
`normalize_spaces`: ASCII letters, digits, and Hangul syllables. -/
def wordChar (c : Char) : Bool :=
  let n := c.toNat
  (decide (65 ≤ n) && decide (n ≤ 90)) ||
  (decide (97 ≤ n) && decide (n ≤ 122)) ||
  (decide (48 ≤ n) && decide (n ≤ 57)) ||
  (decide (44032 ≤ n) && decide (n ≤ 55203))

/-- The class `[ \t]` used by the trailing-blank regex. -/
def htChar (c : Char) : Bool :=
  c.toNat == 32 || c.toNat == 9

/-- Python `str.splitlines` boundary characters. -/
def lineTerm (c : Char) : Bool :=
  let n := c.toNat
  n == 10 || n == 11 || n == 12 || n == 13 || n == 28 || n == 29 ||
  n == 30 || n == 133 || n == 8232 || n == 8233

/-- ASCII lower-casing of one character (`str.lower` on the tag alphabet
used by the program: ASCII letters, digits, `#`, and Hangul, which
`str.lower` leaves unchanged). -/
def lowerChar (c : Char) : Char :=
  if 65 ≤ c.toNat ∧ c.toNat ≤ 90 then Char.ofNat (c.toNat + 32) else c

/-- Remove the trailing run of Python whitespace. -/
def dropTrailWs (l : Str) : Str :=
  (l.reverse.dropWhile pyWs).reverse

/-- Python `str.strip()`: remove leading and trailing whitespace. -/
def pyStrip (l : Str) : Str :=
  dropTrailWs (l.dropWhile pyWs)

/-- Dropping a while-prefix never lengthens a list (termination helper). -/
theorem dropWhile_len_le (p : Char → Bool) :
    ∀ l : Str, (l.dropWhile p).length ≤ l.length
  | [] => by simp [List.dropWhile]
  | c :: r => by
    by_cases h : p c
    · simpa [List.dropWhile, h] using Nat.le_succ_of_le (dropWhile_len_le p r)
    · simp [List.dropWhile, h]

/-- Whether a list starts with a colon (used by the colon-spacing scan). -/
def startsColon (l : Str) : Bool :=
  match l with
  | ':' :: _ => true
  | _ => false

/-- The first `re.sub` of `normalize_spaces`:
`re.sub(r"([가-힣A-Za-z0-9])\s*:\s*", r"\1: ", s)`.  The scan is leftmost
and non-overlapping; both `\s*` are greedy, and greediness is exact here
because whitespace is disjoint from `:` and from the end of the match.
Fuel-indexed so that the kernel can evaluate it; the fuel is one unit per
character and every recursive call shortens the subject. -/
def subColonF : Nat → Str → Str
  | _, [] => []
  | 0, l => l
  | fuel + 1, c :: rest =>
    if wordChar c && startsColon (rest.dropWhile pyWs) then
      c :: ':' :: ' ' :: subColonF fuel ((rest.dropWhile pyWs).tail.dropWhile pyWs)
    else c :: subColonF fuel rest

/-- The colon-spacing substitution, with just enough fuel. -/
def subColon (l : Str) : Str := subColonF l.length l

/-- Tail length bound used by the fuel-congruence arguments. -/
theorem tail_dropWhile_len (p : Char → Bool) (rest : Str) :
    ((rest.dropWhile p).tail.dropWhile p).length ≤ rest.length := by
  have h1 : (rest.dropWhile p).length ≤ rest.length := dropWhile_len_le p rest
  have h2 : ((rest.dropWhile p).tail).length ≤ (rest.dropWhile p).length := by
    cases rest.dropWhile p <;> simp
  have h3 := dropWhile_len_le p ((rest.dropWhile p).tail)
  omega

/-- The fuel argument of `subColonF` is irrelevant above the length. -/
theorem subColonF_congr :
    ∀ (n m : Nat) (l : Str), l.length ≤ n → l.length ≤ m →
      subColonF n l = subColonF m l
  | n, m, [], _, _ => by cases n <;> cases m <;> rfl
  | n + 1, m + 1, c :: rest, hn, hm => by
    simp only [subColonF]
    have hr : rest.length ≤ n := by simp at hn; omega
    have hr2 : rest.length ≤ m := by simp at hm; omega
    by_cases h : wordChar c && startsColon (rest.dropWhile pyWs)
    · rw [if_pos h, if_pos h]
      have hl := tail_dropWhile_len pyWs rest
      rw [subColonF_congr n m ((rest.dropWhile pyWs).tail.dropWhile pyWs)
        (by omega) (by omega)]
    · rw [if_neg h, if_neg h]
      rw [subColonF_congr n m rest hr hr2]

/-- One-step unfolding of `subColon` on a cons cell. -/
theorem subColon_cons (c : Char) (rest : Str) :
    subColon (c :: rest) =
      if wordChar c && startsColon (rest.dropWhile pyWs) then
        c :: ':' :: ' ' :: subColon ((rest.dropWhile pyWs).tail.dropWhile pyWs)
      else c :: subColon rest := by
  show subColonF (c :: rest).length (c :: rest) = _
  simp only [List.length_cons, subColonF]
  by_cases h : wordChar c && startsColon (rest.dropWhile pyWs)
  · rw [if_pos h, if_pos h]; simp only [subColon]
    rw [subColonF_congr rest.length ((rest.dropWhile pyWs).tail.dropWhile pyWs).length
      ((rest.dropWhile pyWs).tail.dropWhile pyWs) (tail_dropWhile_len pyWs rest) le_rfl]
  · rw [if_neg h, if_neg h]; simp only [subColon]

/-- Whether a list starts with a newline. -/
def startsNl (l : Str) : Bool :=
  match l with
  | '\n' :: _ => true
  | _ => false

/-- The second `re.sub` of `normalize_spaces`:
`re.sub(r"[ \t]+\n", "\n", s)` — a run of blanks or tabs immediately
followed by a newline is deleted (the newline stays).  When the run is
not followed by a newline no suffix of it can match either, so the scan
emits the whole run and continues after it.  Fuel-indexed like
`subColonF`. -/
def subTrailWsF : Nat → Str → Str
  | _, [] => []
  | 0, l => l
  | fuel + 1, c :: rest =>
    if htChar c then
      if startsNl (rest.dropWhile htChar) then
        '\n' :: subTrailWsF fuel (rest.dropWhile htChar).tail
      else (c :: rest.takeWhile htChar) ++ subTrailWsF fuel (rest.dropWhile htChar)
    else c :: subTrailWsF fuel rest

/-- The trailing-blank substitution, with just enough fuel. -/
def subTrailWs (l : Str) : Str := subTrailWsF l.length l

/-- The fuel argument of `subTrailWsF` is irrelevant above the length. -/
theorem subTrailWsF_congr :
    ∀ (n m : Nat) (l : Str), l.length ≤ n → l.length ≤ m →
      subTrailWsF n l = subTrailWsF m l
  | n, m, [], _, _ => by cases n <;> cases m <;> rfl
  | n + 1, m + 1, c :: rest, hn, hm => by
    simp only [subTrailWsF]
    have hr : rest.length ≤ n := by simp at hn; omega
    have hr2 : rest.length ≤ m := by simp at hm; omega
    have hd := dropWhile_len_le htChar rest
    have ht : ((rest.dropWhile htChar).tail).length ≤ (rest.dropWhile htChar).length := by
      cases rest.dropWhile htChar <;> simp
    by_cases h : htChar c
    · rw [if_pos h, if_pos h]
      by_cases h2 : startsNl (rest.dropWhile htChar)
      · rw [if_pos h2, if_pos h2]
        rw [subTrailWsF_congr n m ((rest.dropWhile htChar).tail) (by omega) (by omega)]
      · rw [if_neg h2, if_neg h2]
        rw [subTrailWsF_congr n m (rest.dropWhile htChar) (by omega) (by omega)]
    · rw [if_neg h, if_neg h]
      rw [subTrailWsF_congr n m rest hr hr2]

/-- One-step unfolding of `subTrailWs` on a cons cell. -/
theorem subTrailWs_cons (c : Char) (rest : Str) :
    subTrailWs (c :: rest) =
      if htChar c then
        if startsNl (rest.dropWhile htChar) then
          '\n' :: subTrailWs ((rest.dropWhile htChar).tail)
        else (c :: rest.takeWhile htChar) ++ subTrailWs (rest.dropWhile htChar)
      else c :: subTrailWs rest := by
  show subTrailWsF (c :: rest).length (c :: rest) = _
  simp only [List.length_cons, subTrailWsF]
  have hd := dropWhile_len_le htChar rest
  have ht : ((rest.dropWhile htChar).tail).length ≤ (rest.dropWhile htChar).length := by
    cases rest.dropWhile htChar <;> simp
  by_cases h : htChar c
  · rw [if_pos h, if_pos h]
    by_cases h2 : startsNl (rest.dropWhile htChar)
    · rw [if_pos h2, if_pos h2]; simp only [subTrailWs]
      rw [subTrailWsF_congr rest.length ((rest.dropWhile htChar).tail).length
        ((rest.dropWhile htChar).tail) (by omega) le_rfl]
    · rw [if_neg h2, if_neg h2]; simp only [subTrailWs]
      rw [subTrailWsF_congr rest.length (rest.dropWhile htChar).length
        (rest.dropWhile htChar) (by omega) le_rfl]
  · rw [if_neg h, if_neg h]; simp only [subTrailWs]

/-- The third `re.sub` of `normalize_spaces`:
`re.sub(r"\n{3,}", "\n\n", s)` — a maximal run of three or more newlines
becomes exactly two (runs of one or two newlines match nowhere and are
emitted unchanged).  Fuel-indexed like `subColonF`. -/
def collapseNlF : Nat → Str → Str
  | _, [] => []
  | 0, l => l
  | fuel + 1, c :: rest =>
    if c = '\n' then
      if 2 ≤ (rest.takeWhile (fun d => d = '\n')).length then
        '\n' :: '\n' :: collapseNlF fuel (rest.dropWhile (fun d => d = '\n'))
      else (c :: rest.takeWhile (fun d => d = '\n')) ++
        collapseNlF fuel (rest.dropWhile (fun d => d = '\n'))
    else c :: collapseNlF fuel rest

/-- The newline-collapsing substitution, with just enough fuel. -/
def collapseNl (l : Str) : Str := collapseNlF l.length l

/-- The fuel argument of `collapseNlF` is irrelevant above the length. -/
theorem collapseNlF_congr :
    ∀ (n m : Nat) (l : Str), l.length ≤ n → l.length ≤ m →
      collapseNlF n l = collapseNlF m l
  | n, m, [], _, _ => by cases n <;> cases m <;> rfl
  | n + 1, m + 1, c :: rest, hn, hm => by
    simp only [collapseNlF]
    have hr : rest.length ≤ n := by simp at hn; omega
    have hr2 : rest.length ≤ m := by simp at hm; omega
    have hd := dropWhile_len_le (fun d => decide (d = '\n')) rest
    by_cases h : c = '\n'
    · rw [if_pos h, if_pos h]
      by_cases h2 : 2 ≤ (rest.takeWhile (fun d => d = '\n')).length
      · rw [if_pos h2, if_pos h2]
        rw [collapseNlF_congr n m (rest.dropWhile (fun d => d = '\n'))
          (by omega) (by omega)]
      · rw [if_neg h2, if_neg h2]
        rw [collapseNlF_congr n m (rest.dropWhile (fun d => d = '\n'))
          (by omega) (by omega)]
    · rw [if_neg h, if_neg h]
      rw [collapseNlF_congr n m rest hr hr2]

/-- One-step unfolding of `collapseNl` on a cons cell. -/
theorem collapseNl_cons (c : Char) (rest : Str) :
    collapseNl (c :: rest) =
      if c = '\n' then
        if 2 ≤ (rest.takeWhile (fun d => d = '\n')).length then
          '\n' :: '\n' :: collapseNl (rest.dropWhile (fun d => d = '\n'))
        else (c :: rest.takeWhile (fun d => d = '\n')) ++
          collapseNl (rest.dropWhile (fun d => d = '\n'))
      else c :: collapseNl rest := by
  show collapseNlF (c :: rest).length (c :: rest) = _
  simp only [List.length_cons, collapseNlF]
  have hd := dropWhile_len_le (fun d => decide (d = '\n')) rest
  by_cases h : c = '\n'
  · rw [if_pos h, if_pos h]
    by_cases h2 : 2 ≤ (rest.takeWhile (fun d => d = '\n')).length
    · rw [if_pos h2, if_pos h2]; simp only [collapseNl]
      rw [collapseNlF_congr rest.length (rest.dropWhile (fun d => d = '\n')).length
        (rest.dropWhile (fun d => d = '\n')) (by omega) le_rfl]
    · rw [if_neg h2, if_neg h2]; simp only [collapseNl]
      rw [collapseNlF_congr rest.length (rest.dropWhile (fun d => d = '\n')).length
        (rest.dropWhile (fun d => d = '\n')) (by omega) le_rfl]
  · rw [if_neg h, if_neg h]; simp only [collapseNl]

/-- `normalize_spaces` from `src/app.py`: colon spacing, trailing-blank
removal before newlines, blank-line collapsing, final trim. -/
def normalize_spaces (s : Str) : Str :=
  pyStrip (collapseNl (subTrailWs (subColon s)))

/-- The tag-normalization step of `ensure_hashtags_30.add`: trim; drop if
empty; prepend `#` when missing.  `none` means the tag is skipped. -/
def normTag (tag : Str) : Option Str :=
  let t := pyStrip tag
  if t = [] then none
  else if t.head? = some '#' then some t else some ('#' :: t)

/-- Case-insensitive key of a tag (`t.lower()`). -/
def lowerL (t : Str) : Str := t.map lowerChar

/-- One `add(tag)` call of `ensure_hashtags_30`: the state is the ordered
output `base` and the set `seen` of lower-cased keys (modelled as the list
of keys in insertion order). -/
def addTag (st : List Str × List Str) (tag : Str) : List Str × List Str :=
  match normTag tag with
  | none => st
  | some t =>
    if lowerL t ∈ st.2 then st else (st.1 ++ [t], st.2 ++ [lowerL t])

/-- Folding `add` over a list of candidate tags. -/
def addList (st : List Str × List Str) (tags : List Str) : List Str × List Str :=
  tags.foldl addTag st

/-- The keyword-derived candidate: `k2 = re.sub(r"\s+", "", k)`; when `k2`
is nonempty the candidate `"#" + k2` is passed to `add`. -/
def kwCand (k : Str) : Option Str :=
  let k2 := k.filter (fun c => !pyWs c)
  if k2 = [] then none else some ('#' :: k2)

/-- The hard-coded filler pool of `ensure_hashtags_30` (21 tags). -/
def fillerTags : List Str :=
  ["#겨울코디".data, "#봄코디".data, "#간절기코디".data, "#오피스룩".data,
   "#하객룩".data, "#학교상담룩".data, "#체형커버".data, "#데일리패션".data,
   "#중년코디".data, "#미시룩".data, "#심플룩".data, "#꾸안꾸".data,
   "#스타일링".data, "#코디추천".data, "#여성패션".data, "#쇼핑몰추천".data,
   "#오늘의코디".data, "#데일리코디".data, "#40대코디".data, "#50대코디".data,
   "#중년여성".data]

/-- The filler loop: `for t in filler: if len(base) >= 30: break; add(t)`. -/
def fillerLoop (st : List Str × List Str) : List Str → List Str × List Str
  | [] => st
  | t :: ts => if 30 ≤ st.1.length then st else fillerLoop (addTag st t) ts

/-- `ensure_hashtags_30` before the final `" ".join`: the list
`base[:30]`. -/
def ensure_hashtags_30_list (required keywords : List Str) : List Str :=
  let st := addList (addList ([], []) required) (keywords.filterMap kwCand)
  let st := fillerLoop st fillerTags
  st.1.take 30

/-- `ensure_hashtags_30` from `src/app.py`: `" ".join(base[:30])`. -/
def ensure_hashtags_30 (required keywords : List Str) : Str :=
  List.intercalate [' '] (ensure_hashtags_30_list required keywords)

/-- Specification-side dedup (from the spec's curation algorithm): keep
each candidate whose lower-cased key was not seen before, in order. -/
def dedupBy (seen : List Str) : List Str → List Str
  | [] => []
  | t :: ts =>
    if lowerL t ∈ seen then dedupBy seen ts
    else t :: dedupBy (lowerL t :: seen) ts

/-- The full candidate stream of the curation, normalized: required tags,
then keyword-derived tags, then the filler pool. -/
def allCands (required keywords : List Str) : List Str :=
  required.filterMap normTag ++ keywords.filterMap kwCand ++ fillerTags

/-- Number of case-insensitively distinct tags in a candidate list. -/
def countDistinct (l : List Str) : Nat :=
  (l.map lowerL).toFinset.card

/-- Whether a list starts with `"\r\n"`. -/
def startsCrLf (l : Str) : Bool :=
  match l with
  | '\r' :: '\n' :: _ => true
  | _ => false

/-- A list that starts with `"\r\n"` has that exact shape. -/
theorem startsCrLf_shape (l : Str) (h : startsCrLf l = true) :
    l = '\r' :: '\n' :: l.tail.tail := by
  unfold startsCrLf at h
  split at h
  · simp
  · exact absurd h (by simp)

/-- Python `str.splitlines()` (without keepends): split at line boundary
characters, treating `"\r\n"` as one boundary, with no trailing empty
line for a trailing terminator.  Fuel-indexed like `subColonF`. -/
def splitlinesF : Nat → Str → List Str
  | _, [] => []
  | 0, l => [l]
  | fuel + 1, c :: rest =>
    let line := (c :: rest).takeWhile (fun d => !lineTerm d)
    let r := (c :: rest).dropWhile (fun d => !lineTerm d)
    if r.isEmpty then [line]
    else if startsCrLf r then line :: splitlinesF fuel (r.tail.tail)
    else line :: splitlinesF fuel r.tail

/-- `str.splitlines()`, with just enough fuel. -/
def splitlines (l : Str) : List Str := splitlinesF l.length l

/-- The fuel argument of `splitlinesF` is irrelevant above the length. -/
theorem splitlinesF_congr :
    ∀ (n m : Nat) (l : Str), l.length ≤ n → l.length ≤ m →
      splitlinesF n l = splitlinesF m l
  | n, m, [], _, _ => by cases n <;> cases m <;> rfl
  | n + 1, m + 1, c :: rest, hn, hm => by
    simp only [splitlinesF]
    have hr : rest.length ≤ n := by simp at hn; omega
    have hr2 : rest.length ≤ m := by simp at hm; omega
    have hd := dropWhile_len_le (fun d => !lineTerm d) (c :: rest)
    have ht1 : (((c :: rest).dropWhile (fun d => !lineTerm d)).tail).length ≤
        ((c :: rest).dropWhile (fun d => !lineTerm d)).length := by
      cases (c :: rest).dropWhile (fun d => !lineTerm d) <;> simp
    have ht2 : ((((c :: rest).dropWhile (fun d => !lineTerm d)).tail).tail).length ≤
        (((c :: rest).dropWhile (fun d => !lineTerm d)).tail).length := by
      cases ((c :: rest).dropWhile (fun d => !lineTerm d)).tail <;> simp
    simp only [List.length_cons] at hd
    by_cases h : ((c :: rest).dropWhile (fun d => !lineTerm d)).isEmpty
    · rw [if_pos h, if_pos h]
    · rw [if_neg h, if_neg h]
      have hne : ((c :: rest).dropWhile (fun d => !lineTerm d)) ≠ [] := by
        simpa [List.isEmpty_iff] using h
      have htl : ((c :: rest).dropWhile (fun d => !lineTerm d)).tail.length + 1 =
          ((c :: rest).dropWhile (fun d => !lineTerm d)).length := by
        cases hx : (c :: rest).dropWhile (fun d => !lineTerm d) with
        | nil => exact absurd hx hne
        | cons a b => simp
      by_cases h2 : startsCrLf ((c :: rest).dropWhile (fun d => !lineTerm d))
      · rw [if_pos h2, if_pos h2]
        have hlen := congrArg List.length (startsCrLf_shape _ h2)
        simp only [List.length_cons] at hlen
        rw [splitlinesF_congr n m _ (by omega) (by omega)]
      · rw [if_neg h2, if_neg h2]
        rw [splitlinesF_congr n m _ (by omega) (by omega)]

/-- One-step unfolding of `splitlines` on a cons cell. -/
theorem splitlines_cons (c : Char) (rest : Str) :
    splitlines (c :: rest) =
      (let line := (c :: rest).takeWhile (fun d => !lineTerm d)
       let r := (c :: rest).dropWhile (fun d => !lineTerm d)
       if r.isEmpty then [line]
       else if startsCrLf r then line :: splitlines (r.tail.tail)
       else line :: splitlines r.tail) := by
  show splitlinesF (c :: rest).length (c :: rest) = _
  simp only [List.length_cons, splitlinesF]
  have hd := dropWhile_len_le (fun d => !lineTerm d) (c :: rest)
  have ht1 : (((c :: rest).dropWhile (fun d => !lineTerm d)).tail).length ≤
      ((c :: rest).dropWhile (fun d => !lineTerm d)).length := by
    cases (c :: rest).dropWhile (fun d => !lineTerm d) <;> simp
  have ht2 : ((((c :: rest).dropWhile (fun d => !lineTerm d)).tail).tail).length ≤
      (((c :: rest).dropWhile (fun d => !lineTerm d)).tail).length := by
    cases ((c :: rest).dropWhile (fun d => !lineTerm d)).tail <;> simp
  simp only [List.length_cons] at hd
  by_cases h : ((c :: rest).dropWhile (fun d => !lineTerm d)).isEmpty
  · rw [if_pos h, if_pos h]
  · rw [if_neg h, if_neg h]
    have hne : ((c :: rest).dropWhile (fun d => !lineTerm d)) ≠ [] := by
      simpa [List.isEmpty_iff] using h
    have htl : ((c :: rest).dropWhile (fun d => !lineTerm d)).tail.length + 1 =
        ((c :: rest).dropWhile (fun d => !lineTerm d)).length := by
      cases hx : (c :: rest).dropWhile (fun d => !lineTerm d) with
      | nil => exact absurd hx hne
      | cons a b => simp
    by_cases h2 : startsCrLf ((c :: rest).dropWhile (fun d => !lineTerm d))
    · rw [if_pos h2, if_pos h2]; simp only [splitlines]
      have hlen := congrArg List.length (startsCrLf_shape _ h2)
      simp only [List.length_cons] at hlen
      rw [splitlinesF_congr rest.length _ _ (by omega) le_rfl]
    · rw [if_neg h2, if_neg h2]; simp only [splitlines]
      rw [splitlinesF_congr rest.length _ _ (by omega) le_rfl]

/-- First label substitution of `strip_title_prefix`:
`re.sub(r"^(제목\s*[:：]\s*)", "", l)`. -/
def labelSub1 (l : Str) : Str :=
  match l with
  | '제' :: '목' :: r =>
    match r.dropWhile pyWs with
    | c :: r2 => if c = ':' ∨ c = '：' then r2.dropWhile pyWs else l
    | [] => l
  | _ => l

/-- Second label substitution: `re.sub(r"^(\[제목\]\s*)", "", l)`. -/
def labelSub2 (l : Str) : Str :=
  match l with
  | '[' :: '제' :: '목' :: ']' :: r => r.dropWhile pyWs
  | _ => l

/-- Third label substitution:
`re.sub(r"^(TITLE\s*[:：]\s*)", "", l, flags=re.IGNORECASE)`. -/
def labelSub3 (l : Str) : Str :=
  match l with
  | a :: b :: c :: d :: e :: r =>
    if lowerChar a = 't' ∧ lowerChar b = 'i' ∧ lowerChar c = 't' ∧
        lowerChar d = 'l' ∧ lowerChar e = 'e' then
      match r.dropWhile pyWs with
      | f :: r2 => if f = ':' ∨ f = '：' then r2.dropWhile pyWs else l
      | [] => l
    else l
  | _ => l

/-- `strip_title_prefix` from `src/app.py` (named `stripTitlePfx` here):
trim, strip the three label patterns in order, trim again. -/
def stripTitlePfx (line : Str) : Str :=
  pyStrip (labelSub3 (labelSub2 (labelSub1 (pyStrip line))))

/-- Python `"\n".join(...)` on a list of lines. -/
def joinNl : List Str → Str
  | [] => []
  | [p] => p
  | p :: q :: rest => p ++ '\n' :: joinNl (q :: rest)

/-- `split_title_and_body` from `src/app.py`: trim; empty input gives the
fallback with empty body; otherwise the first line that is non-blank after
trimming is the title candidate (label-stripped), kept only when its
length lies in `[4, 90]`; the body is the remaining lines joined with
newlines and trimmed. -/
def split_title_and_body (generated fallback : Str) : Str × Str :=
  let txt := pyStrip generated
  if txt = [] then (fallback, [])
  else
    let lines := splitlines txt
    match lines.findIdx? (fun ln => !(pyStrip ln).isEmpty) with
    | none => (fallback, txt)
    | some i =>
      let title0 := stripTitlePfx (lines.getD i [])
      let title := if title0.length < 4 ∨ 90 < title0.length then fallback else title0
      (title, pyStrip (joinNl (lines.drop (i + 1))))

/-- `html.escape(x, quote=False)` on one character. -/
def escChar (c : Char) : Str :=
  if c = '&' then "&amp;".data
  else if c = '<' then "&lt;".data
  else if c = '>' then "&gt;".data
  else [c]

/-- The renderer's `esc`: `html.escape(x, quote=False)`. -/
def esc (l : Str) : Str := l.flatMap escChar

/-- Backtracking Kleene star over a character class, continuation style
(the regex `p*` followed by whatever `k` accepts). -/
def chStar (p : Char → Bool) (k : Str → Bool) : Str → Bool
  | [] => k []
  | c :: rest => k (c :: rest) || (p c && chStar p k rest)

/-- The regex `p+` followed by what `k` accepts. -/
def chPlus (p : Char → Bool) (k : Str → Bool) : Str → Bool
  | [] => false
  | c :: rest => p c && chStar p k rest

/-- A literal character, then what `k` accepts. -/
def litCh (c : Char) (k : Str → Bool) : Str → Bool
  | [] => false
  | d :: rest => d == c && k rest

/-- An optional literal character, then what `k` accepts. -/
def optCh (c : Char) (k : Str → Bool) (l : Str) : Bool :=
  k l || litCh c k l

/-- End of input (the regex `$`; the subject is a stripped line, so the
`$`-before-final-newline case cannot arise). -/
def atEnd (l : Str) : Bool := l.isEmpty

/-- The class `[-: ]` of the table-separator regex. -/
def sepSet1 (c : Char) : Bool := c == '-' || c == ':' || c == ' '

/-- The class `[-:| ]` of the table-separator regex. -/
def sepSet2 (c : Char) : Bool := c == '-' || c == ':' || c == '|' || c == ' '

/-- The table-separator test of `md_to_html_for_naver`:
`re.match(r"^\|\s*[-: ]+\|\s*[-:| ]+\|?$", s)`, with full backtracking. -/
def sepMatch (s : Str) : Bool :=
  litCh '|' (chStar pyWs (chPlus sepSet1 (litCh '|'
    (chStar pyWs (chPlus sepSet2 (optCh '|' atEnd)))))) s

/-- The table-row test: `s.startswith("|") and "|" in s[1:]`. -/
def isTableRow (s : Str) : Bool :=
  match s with
  | '|' :: rest => rest.contains '|'
  | _ => false

/-- Python `s.strip("|")`: remove leading and trailing pipes. -/
def stripPipes (l : Str) : Str :=
  ((l.dropWhile (fun c => c == '|')).reverse.dropWhile (fun c => c == '|')).reverse

/-- The cells of a table row:
`[c.strip() for c in s.strip("|").split("|")]`. -/
def rowCells (s : Str) : List Str :=
  ((stripPipes s).splitOn '|').map pyStrip

/-- Fixed HTML fragments of the renderer (verbatim from `src/app.py`). -/
def tableOpenTag : Str :=
  "<table style='border-collapse:collapse; width:100%; margin:10px 0; font-size:14px;'>".data

/-- Opening tag of a header cell. -/
def thOpenTag : Str :=
  "<th style='border:1px solid #ddd; padding:10px; background:#f6f6f6; text-align:left;'>".data

/-- Opening tag of a body cell. -/
def tdOpenTag : Str :=
  "<td style='border:1px solid #ddd; padding:10px; vertical-align:top;'>".data

/-- Opening tag of a level-3 heading. -/
def h3OpenTag : Str := "<h3 style='margin:16px 0 8px; font-size:18px;'>".data

/-- Opening tag of a level-2 heading. -/
def h2OpenTag : Str := "<h2 style='margin:18px 0 10px; font-size:20px;'>".data

/-- Opening tag of a level-1 heading. -/
def h1OpenTag : Str := "<h1 style='margin:18px 0 12px; font-size:22px;'>".data

/-- Opening tag of a blockquote. -/
def bqOpenTag : Str :=
  "<blockquote style='margin:12px 0; padding:10px 12px; border-left:4px solid #ddd; background:#fafafa;'>".data

/-- Opening tag of a bullet list. -/
def ulOpenTag : Str := "<ul style='margin:10px 0 10px 18px;'>".data

/-- Opening tag of a list item. -/
def liOpenTag : Str := "<li style='margin:6px 0;'>".data

/-- Opening tag of a paragraph. -/
def pOpenTag : Str := "<p style='margin:10px 0; line-height:1.7;'>".data

/-- `flush_table`: an empty buffer emits nothing; otherwise the first
buffered row is the header, the rest the body. -/
def flushParts (rows : List (List Str)) : List Str :=
  match rows with
  | [] => []
  | header :: body =>
    [tableOpenTag, "<thead><tr>".data] ++
    header.map (fun c => thOpenTag ++ esc c ++ "</th>".data) ++
    ["</tr></thead>".data, "<tbody>".data] ++
    body.flatMap (fun r =>
      ["<tr>".data] ++ r.map (fun c => tdOpenTag ++ esc c ++ "</td>".data) ++
      ["</tr>".data]) ++
    ["</tbody></table>".data]

/-- The non-table line cases of the renderer's loop, in source order:
blank, headings, blockquote, bullet, paragraph.  `s` is the stripped line,
`ln` the original (the paragraph case escapes `ln`, as the code does). -/
def lineParts (s ln : Str) : List Str :=
  if s = [] then ["<br/>".data]
  else if s.take 4 = "### ".data then [h3OpenTag ++ esc (s.drop 4) ++ "</h3>".data]
  else if s.take 3 = "## ".data then [h2OpenTag ++ esc (s.drop 3) ++ "</h2>".data]
  else if s.take 2 = "# ".data then [h1OpenTag ++ esc (s.drop 2) ++ "</h1>".data]
  else if s.head? = some '>' then
    [bqOpenTag ++ esc (pyStrip (s.drop 1)) ++ "</blockquote>".data]
  else if s.take 2 = "- ".data then
    [ulOpenTag, liOpenTag ++ esc (pyStrip (s.drop 2)) ++ "</li>".data, "</ul>".data]
  else [pOpenTag ++ esc ln ++ "</p>".data]

/-- The line loop of `md_to_html_for_naver`, carrying the table state
(`in_table`, `table_rows`) and emitting `html_parts`. -/
def renderLines : Bool → List (List Str) → List Str → List Str
  | inT, rows, [] => if inT then flushParts rows else []
  | inT, rows, ln :: rest =>
    let s := pyStrip ln
    if sepMatch s then renderLines inT rows rest
    else if isTableRow s then
      renderLines true ((if inT then rows else []) ++ [rowCells s]) rest
    else
      (if inT then flushParts rows else []) ++ lineParts s ln ++
        renderLines false [] rest

/-- Python `str.replace("\r\n", "\n")`. -/
def replaceCrLf : Str → Str
  | [] => []
  | '\r' :: '\n' :: r => '\n' :: replaceCrLf r
  | c :: r => c :: replaceCrLf r

/-- Greedy parse of repetitions of `<br/>\s*` (the group of the final
`re.sub(r"(<br/>\s*){3,}", "<br/><br/>", out)`): the count and the rest.
Fuel-indexed; each repetition consumes at least five characters. -/
def brRepsF : Nat → Str → Nat × Str
  | _, [] => (0, [])
  | 0, l => (0, l)
  | fuel + 1, c :: rest =>
    if (c :: rest).take 5 = "<br/>".data then
      ((brRepsF fuel (((c :: rest).drop 5).dropWhile pyWs)).1 + 1,
       (brRepsF fuel (((c :: rest).drop 5).dropWhile pyWs)).2)
    else (0, c :: rest)

/-- The `<br/>`-run parse, with just enough fuel. -/
def brReps (l : Str) : Nat × Str := brRepsF l.length l

/-- The fuel argument of `brRepsF` is irrelevant above the length. -/
theorem brRepsF_congr :
    ∀ (n m : Nat) (l : Str), l.length ≤ n → l.length ≤ m →
      brRepsF n l = brRepsF m l
  | n, m, [], _, _ => by cases n <;> cases m <;> rfl
  | n + 1, m + 1, c :: rest, hn, hm => by
    simp only [brRepsF]
    have hdr := dropWhile_len_le pyWs ((c :: rest).drop 5)
    have hd5 : ((c :: rest).drop 5).length = (c :: rest).length - 5 := by simp
    simp only [List.length_cons] at hn hm hd5
    by_cases h : (c :: rest).take 5 = "<br/>".data
    · rw [if_pos h, if_pos h]
      rw [brRepsF_congr n m (((c :: rest).drop 5).dropWhile pyWs)
        (by omega) (by omega)]
    · rw [if_neg h, if_neg h]

/-- One-step unfolding of `brReps` on a cons cell. -/
theorem brReps_cons (c : Char) (rest : Str) :
    brReps (c :: rest) =
      if (c :: rest).take 5 = "<br/>".data then
        ((brReps (((c :: rest).drop 5).dropWhile pyWs)).1 + 1,
         (brReps (((c :: rest).drop 5).dropWhile pyWs)).2)
      else (0, c :: rest) := by
  show brRepsF (c :: rest).length (c :: rest) = _
  simp only [List.length_cons, brRepsF]
  have hdr := dropWhile_len_le pyWs ((c :: rest).drop 5)
  have hd5 : ((c :: rest).drop 5).length = (c :: rest).length - 5 := by simp
  simp only [List.length_cons] at hd5
  by_cases h : (c :: rest).take 5 = "<br/>".data
  · rw [if_pos h, if_pos h]; simp only [brReps]
    rw [brRepsF_congr rest.length (((c :: rest).drop 5).dropWhile pyWs).length
      (((c :: rest).drop 5).dropWhile pyWs) (by omega) le_rfl]
  · rw [if_neg h, if_neg h]

/-- A `<br/>`-run parse consumes five characters per repetition. -/
theorem brRepsF_len :
    ∀ (n : Nat) (l : Str),
      (brRepsF n l).2.length + 5 * (brRepsF n l).1 ≤ l.length
  | _, [] => by cases ‹Nat› <;> simp [brRepsF]
  | 0, c :: rest => by simp [brRepsF]
  | n + 1, c :: rest => by
    simp only [brRepsF]
    by_cases h : (c :: rest).take 5 = "<br/>".data
    · rw [if_pos h]
      have h5 : 5 ≤ (c :: rest).length := by
        have hd5 : ("<br/>".data).length = 5 := rfl
        have hlen := congrArg List.length h
        rw [hd5, List.length_take] at hlen
        omega
      have hdr := dropWhile_len_le pyWs ((c :: rest).drop 5)
      have hd5 : ((c :: rest).drop 5).length = (c :: rest).length - 5 := by simp
      have ih := brRepsF_len n (((c :: rest).drop 5).dropWhile pyWs)
      simp only [List.length_cons] at h5 hd5 ⊢
      omega
    · rw [if_neg h]
      simp

/-- Length form of `brRepsF_len` for the wrapper. -/
theorem brReps_len (l : Str) :
    (brReps l).2.length + 5 * (brReps l).1 ≤ l.length :=
  brRepsF_len l.length l

/-- The final `re.sub(r"(<br/>\s*){3,}", "<br/><br/>", out)`: a maximal
run of three or more `<br/>`-plus-whitespace groups collapses to
`<br/><br/>`.  Fuel-indexed like `subColonF`. -/
def collapseBrRunsF : Nat → Str → Str
  | _, [] => []
  | 0, l => l
  | fuel + 1, c :: rest =>
    if 3 ≤ (brReps (c :: rest)).1 then
      "<br/><br/>".data ++ collapseBrRunsF fuel (brReps (c :: rest)).2
    else c :: collapseBrRunsF fuel rest

/-- The `<br/>`-run collapsing substitution, with just enough fuel. -/
def collapseBrRuns (l : Str) : Str := collapseBrRunsF l.length l

/-- The fuel argument of `collapseBrRunsF` is irrelevant above the length. -/
theorem collapseBrRunsF_congr :
    ∀ (n m : Nat) (l : Str), l.length ≤ n → l.length ≤ m →
      collapseBrRunsF n l = collapseBrRunsF m l
  | n, m, [], _, _ => by cases n <;> cases m <;> rfl
  | n + 1, m + 1, c :: rest, hn, hm => by
    simp only [collapseBrRunsF]
    have hr : rest.length ≤ n := by simp at hn; omega
    have hr2 : rest.length ≤ m := by simp at hm; omega
    by_cases h : 3 ≤ (brReps (c :: rest)).1
    · rw [if_pos h, if_pos h]
      have hlen := brReps_len (c :: rest)
      simp only [List.length_cons] at hlen
      rw [collapseBrRunsF_congr n m ((brReps (c :: rest)).2) (by omega) (by omega)]
    · rw [if_neg h, if_neg h]
      rw [collapseBrRunsF_congr n m rest hr hr2]

/-- One-step unfolding of `collapseBrRuns` on a cons cell. -/
theorem collapseBrRuns_cons (c : Char) (rest : Str) :
    collapseBrRuns (c :: rest) =
      if 3 ≤ (brReps (c :: rest)).1 then
        "<br/><br/>".data ++ collapseBrRuns ((brReps (c :: rest)).2)
      else c :: collapseBrRuns rest := by
  show collapseBrRunsF (c :: rest).length (c :: rest) = _
  simp only [List.length_cons, collapseBrRunsF]
  by_cases h : 3 ≤ (brReps (c :: rest)).1
  · rw [if_pos h, if_pos h]; simp only [collapseBrRuns]
    have hlen := brReps_len (c :: rest)
    simp only [List.length_cons] at hlen
    rw [collapseBrRunsF_congr rest.length ((brReps (c :: rest)).2).length
      ((brReps (c :: rest)).2) (by omega) le_rfl]
  · rw [if_neg h, if_neg h]; simp only [collapseBrRuns]

/-- The line list of `md_to_html_for_naver`: strip, normalize `"\r\n"`,
split on `"\n"`. -/
def mdLines (md : Str) : List Str :=
  (replaceCrLf (pyStrip md)).splitOn '\n'

/-- `md_to_html_for_naver` from `src/app.py`. -/
def md_to_html_for_naver (md : Str) : Str :=
  pyStrip (collapseBrRuns (joinNl (renderLines false [] (mdLines md))))

/-- Substring test on embedded strings. -/
def isSubstr (pat : Str) : Str → Bool
  | [] => pat.isEmpty
  | c :: rest => pat.isPrefixOf (c :: rest) || isSubstr pat rest

/-- Number of positions at which `pat` occurs. -/
def countSubstr (pat : Str) : Str → Nat
  | [] => if pat.isEmpty then 1 else 0
  | c :: rest => (if pat.isPrefixOf (c :: rest) then 1 else 0) + countSubstr pat rest

/-- No occurrence of the adjacent pair `'<'` then `b`. -/
def noPairLt (b : Char) : Str → Bool
  | [] => true
  | [_] => true
  | x :: y :: r => !(x == '<' && y == b) && noPairLt b (y :: r)

/-- A list with no whitespace characters is already stripped. -/
theorem pyStrip_of_no_ws (l : Str) (h : ∀ c ∈ l, pyWs c = false) :
    pyStrip l = l := by
  have h1 : l.dropWhile pyWs = l := by
    cases l with
    | nil => rfl
    | cons c r => rw [List.dropWhile_cons_of_neg (by simp [h c (by simp)])]
  have h2 : l.reverse.dropWhile pyWs = l.reverse := by
    cases hr : l.reverse with
    | nil => rfl
    | cons c r =>
      rw [List.dropWhile_cons_of_neg]
      simp only [Bool.not_eq_true]
      apply h
      have : c ∈ l.reverse := by rw [hr]; simp
      simpa using this
  simp [pyStrip, dropTrailWs, h1, h2]

/-- A keyword-derived candidate is a fixed point of the normalization. -/
theorem kwCand_norm (k c : Str) (h : kwCand k = some c) : normTag c = some c := by
  unfold kwCand at h
  by_cases h2 : k.filter (fun c => !pyWs c) = []
  · simp [h2] at h
  · simp only [h2, if_false] at h
    have hc : c = '#' :: k.filter (fun c => !pyWs c) := by
      simpa using h.symm
    have hnws : ∀ d ∈ c, pyWs d = false := by
      intro d hd
      rw [hc] at hd
      rcases List.mem_cons.1 hd with h3 | h3
      · subst h3; decide
      · exact Bool.not_eq_true _ ▸ (by simpa using (List.mem_filter.1 h3).2)
    unfold normTag
    rw [pyStrip_of_no_ws c hnws]
    have : c ≠ [] := by rw [hc]; simp
    simp only [this, if_false]
    rw [hc]
    simp

/-- The filler pool is untouched by the normalization. -/
theorem fillerTags_norm : fillerTags.filterMap normTag = fillerTags := by decide

/-- `dedupBy` only depends on the membership of the seen set. -/
theorem dedupBy_congr :
    ∀ (l : List Str) (s₁ s₂ : List Str), (∀ k, k ∈ s₁ ↔ k ∈ s₂) →
      dedupBy s₁ l = dedupBy s₂ l
  | [], _, _, _ => rfl
  | t :: ts, s₁, s₂, h => by
    simp only [dedupBy]
    by_cases hm : lowerL t ∈ s₁
    · rw [if_pos hm, if_pos ((h _).1 hm)]
      exact dedupBy_congr ts s₁ s₂ h
    · rw [if_neg hm, if_neg (fun hx => hm ((h _).2 hx))]
      refine congrArg _ (dedupBy_congr ts _ _ ?_)
      intro k
      simp only [List.mem_cons]
      exact or_congr Iff.rfl (h k)

/-- The `add` fold is first-seen dedup of the normalized candidates: it
appends exactly the case-insensitively fresh normalized tags, and records
their keys. -/
theorem addList_eq :
    ∀ (ts : List Str) (b s : List Str),
      addList (b, s) ts =
        (b ++ dedupBy s (ts.filterMap normTag),
         s ++ (dedupBy s (ts.filterMap normTag)).map lowerL)
  | [], b, s => by simp [addList, dedupBy]
  | t :: ts, b, s => by
    simp only [addList, List.foldl_cons, List.filterMap_cons]
    cases hn : normTag t with
    | none =>
      have : addTag (b, s) t = (b, s) := by simp [addTag, hn]
      rw [this]
      exact addList_eq ts b s
    | some u =>
      by_cases hm : lowerL u ∈ s
      · have : addTag (b, s) t = (b, s) := by simp [addTag, hn, hm]
        rw [this]
        simp only [dedupBy, hm, if_pos]
        exact addList_eq ts b s
      · have : addTag (b, s) t = (b ++ [u], s ++ [lowerL u]) := by
          simp [addTag, hn, hm]
        rw [this]
        have ih := addList_eq ts (b ++ [u]) (s ++ [lowerL u])
        show addList (b ++ [u], s ++ [lowerL u]) ts = _
        rw [ih]
        simp only [dedupBy, hm, if_neg, if_false]
        have hseen : ∀ k, k ∈ s ++ [lowerL u] ↔ k ∈ lowerL u :: s := by
          intro k; simp [or_comm]
        rw [dedupBy_congr (ts.filterMap normTag) _ _ hseen]
        simp

/-- The filler loop agrees with the plain fold after truncation to 30:
the loop only stops once the base already holds 30 tags, and tags are
only ever appended. -/
theorem fillerLoop_take :
    ∀ (fs : List Str) (st : List Str × List Str),
      ((fillerLoop st fs).1).take 30 = ((addList st fs).1).take 30
  | [], st => by simp [fillerLoop, addList]
  | f :: fs, st => by
    simp only [fillerLoop]
    by_cases h : 30 ≤ st.1.length
    · rw [if_pos h]
      have hext := addList_eq (f :: fs) st.1 st.2
      have : (addList st (f :: fs)).1 = st.1 ++ dedupBy st.2 ((f :: fs).filterMap normTag) := by
        rw [show st = (st.1, st.2) from rfl] at hext ⊢
        rw [hext]
      rw [this, List.take_append_of_le_length h]
    · rw [if_neg h]
      have := fillerLoop_take fs (addTag st f)
      rw [this]
      simp [addList, List.foldl_cons]

/-- `dedupBy` over an append: the second part is deduplicated against the
seen set extended with the first part's keys. -/
theorem dedupBy_append :
    ∀ (A B s : List Str),
      dedupBy s (A ++ B) =
        dedupBy s A ++ dedupBy (s ++ (dedupBy s A).map lowerL) B
  | [], B, s => by simp [dedupBy]
  | a :: A, B, s => by
    simp only [List.cons_append, dedupBy]
    by_cases hm : lowerL a ∈ s
    · rw [if_pos hm, if_pos hm]
      exact dedupBy_append A B s
    · rw [if_neg hm, if_neg hm]
      show a :: dedupBy (lowerL a :: s) (A ++ B) =
        a :: dedupBy (lowerL a :: s) A ++
          dedupBy (s ++ List.map lowerL (a :: dedupBy (lowerL a :: s) A)) B
      rw [dedupBy_append A B (lowerL a :: s)]
      simp only [List.cons_append, List.map_cons]
      refine congrArg _ (congrArg _ (dedupBy_congr B _ _ ?_))
      intro k
      simp only [List.mem_cons, List.mem_append, List.mem_map]
      tauto

/-- The curation equals first-seen case-insensitive dedup of the full
normalized candidate stream, truncated to 30. -/
theorem ensure_eq_dedup (required keywords : List Str) :
    ensure_hashtags_30_list required keywords =
      (dedupBy [] (allCands required keywords)).take 30 := by
  unfold ensure_hashtags_30_list
  have h1 := addList_eq required [] []
  have hkw : (keywords.filterMap kwCand).filterMap normTag = keywords.filterMap kwCand := by
    induction keywords with
    | nil => rfl
    | cons k ks ih =>
      cases hk : kwCand k with
      | none => simp [List.filterMap_cons, hk, ih]
      | some c => simp [List.filterMap_cons, hk, kwCand_norm k c hk, ih]
  rw [fillerLoop_take]
  rw [show (([] : List Str), ([] : List Str)) = (([] : List Str), ([] : List Str)) from rfl] at h1
  rw [h1]
  rw [addList_eq]
  rw [addList_eq]
  simp only [List.nil_append, hkw, fillerTags_norm]
  unfold allCands
  conv_rhs =>
    rw [List.append_assoc]
    rw [dedupBy_append (required.filterMap normTag)
      (keywords.filterMap kwCand ++ fillerTags) []]
    rw [dedupBy_append (keywords.filterMap kwCand) fillerTags]
  simp [List.append_assoc]

/-- Length of a `dedupBy`: the number of distinct keys not yet seen. -/
theorem dedupBy_length :
    ∀ (l s : List Str),
      (dedupBy s l).length = ((l.map lowerL).toFinset \ s.toFinset).card
  | [], s => by simp [dedupBy]
  | t :: ts, s => by
    simp only [dedupBy, List.map_cons, List.toFinset_cons]
    by_cases hm : lowerL t ∈ s
    · rw [if_pos hm, dedupBy_length ts s]
      rw [Finset.insert_sdiff_of_mem _ (by simpa using hm)]
    · rw [if_neg hm, List.length_cons, dedupBy_length ts (lowerL t :: s)]
      rw [Finset.insert_sdiff_of_not_mem _ (by simpa using hm)]
      rw [show (lowerL t :: s).toFinset = insert (lowerL t) s.toFinset from by simp]
      rw [Finset.sdiff_insert]
      have hins : insert (lowerL t) ((ts.map lowerL).toFinset \ s.toFinset) =
          insert (lowerL t) (((ts.map lowerL).toFinset \ s.toFinset).erase (lowerL t)) := by
        ext y
        simp only [Finset.mem_insert, Finset.mem_erase]
        constructor
        · rintro (h | h)
          · exact Or.inl h
          · by_cases hy : y = lowerL t
            · exact Or.inl hy
            · exact Or.inr ⟨hy, h⟩
        · rintro (h | h)
          · exact Or.inl h
          · exact Or.inr h.2
      rw [hins, Finset.card_insert_of_not_mem (Finset.not_mem_erase _ _)]

/-- C8: every candidate tag — required, then keyword-derived, then filler
— is normalized by trimming and `#`-prefixing, skipped when its
lower-cased form was already seen, and appended otherwise; hence the
curation output is exactly the first-seen case-insensitive dedup of the
normalized candidate stream, truncated to 30, and in particular a
keyword-derived tag that collides case-insensitively with a required tag
appears only once, in its required-tag casing (`["#Foo"]`/`["foo"]`
yields one `"#Foo"`). -/
theorem C8_curation_dedup (required keywords : List Str) :
    ensure_hashtags_30_list required keywords =
      (dedupBy [] (allCands required keywords)).take 30 ∧
    (ensure_hashtags_30_list ["#Foo".data] ["foo".data]).head? = some "#Foo".data ∧
    "#foo".data ∉ ensure_hashtags_30_list ["#Foo".data] ["foo".data] :=
  ⟨ensure_eq_dedup required keywords, by decide, by decide⟩

/-- C1 (amended): the curation returns `min 30 d` tags where `d` is the
number of case-insensitively distinct normalized candidates drawn from
the required, keyword-derived and filler tags; the system-supplied filler
pool has only 21 entries, so the output can be shorter than 30. -/
theorem C1_hashtag_count (required keywords : List Str) :
    (ensure_hashtags_30_list required keywords).length =
      min 30 (countDistinct (allCands required keywords)) := by
  rw [ensure_eq_dedup, List.length_take, dedupBy_length]
  simp [countDistinct]

/-- C1 counterexample: with the system's filler pool, empty required tags
and empty keywords produce 21 tags, not 30. -/
theorem C1_hashtag_count_cex :
    (ensure_hashtags_30_list [] []).length = 21 ∧
    (ensure_hashtags_30_list [] []).length ≠ 30 := by
  constructor
  · decide
  · decide

/-- C4: when the required tags alone contain 30 or more
case-insensitively distinct (normalized) entries, the curation returns
exactly the first 30 of them, in order, and no keyword-derived or filler
tag appears. -/
theorem C4_required_priority (required keywords : List Str)
    (h : 30 ≤ countDistinct (required.filterMap normTag)) :
    ensure_hashtags_30_list required keywords =
      (dedupBy [] (required.filterMap normTag)).take 30 := by
  rw [ensure_eq_dedup]
  unfold allCands
  rw [List.append_assoc]
  rw [dedupBy_append (required.filterMap normTag) _ []]
  have hlen : 30 ≤ (dedupBy [] (required.filterMap normTag)).length := by
    rw [dedupBy_length]
    simpa [countDistinct] using h
  rw [List.take_append_of_le_length hlen]

/-- Witness for C4 at a concrete list of 30 distinct required tags. -/
theorem C4_required_priority_witness :
    30 ≤ countDistinct ((["#t01".data, "#t02".data, "#t03".data, "#t04".data, "#t05".data, "#t06".data, "#t07".data, "#t08".data, "#t09".data, "#t10".data, "#t11".data, "#t12".data, "#t13".data, "#t14".data, "#t15".data, "#t16".data, "#t17".data, "#t18".data, "#t19".data, "#t20".data, "#t21".data, "#t22".data, "#t23".data, "#t24".data, "#t25".data, "#t26".data, "#t27".data, "#t28".data, "#t29".data, "#t30".data] : List Str).filterMap normTag) ∧
    ensure_hashtags_30_list ["#t01".data, "#t02".data, "#t03".data, "#t04".data, "#t05".data, "#t06".data, "#t07".data, "#t08".data, "#t09".data, "#t10".data, "#t11".data, "#t12".data, "#t13".data, "#t14".data, "#t15".data, "#t16".data, "#t17".data, "#t18".data, "#t19".data, "#t20".data, "#t21".data, "#t22".data, "#t23".data, "#t24".data, "#t25".data, "#t26".data, "#t27".data, "#t28".data, "#t29".data, "#t30".data] ["extra".data] =
      (dedupBy [] ((["#t01".data, "#t02".data, "#t03".data, "#t04".data, "#t05".data, "#t06".data, "#t07".data, "#t08".data, "#t09".data, "#t10".data, "#t11".data, "#t12".data, "#t13".data, "#t14".data, "#t15".data, "#t16".data, "#t17".data, "#t18".data, "#t19".data, "#t20".data, "#t21".data, "#t22".data, "#t23".data, "#t24".data, "#t25".data, "#t26".data, "#t27".data, "#t28".data, "#t29".data, "#t30".data] : List Str).filterMap normTag)).take 30 :=
  ⟨by decide, C4_required_priority ["#t01".data, "#t02".data, "#t03".data, "#t04".data, "#t05".data, "#t06".data, "#t07".data, "#t08".data, "#t09".data, "#t10".data, "#t11".data, "#t12".data, "#t13".data, "#t14".data, "#t15".data, "#t16".data, "#t17".data, "#t18".data, "#t19".data, "#t20".data, "#t21".data, "#t22".data, "#t23".data, "#t24".data, "#t25".data, "#t26".data, "#t27".data, "#t28".data, "#t29".data, "#t30".data] ["extra".data] (by decide)⟩

/-- The head surviving a `dropWhile` fails the predicate. -/
theorem dropWhile_head_false (p : Char → Bool) :
    ∀ (l : Str) (c : Char) (r : Str), l.dropWhile p = c :: r → p c = false
  | [], c, r, h => by simp at h
  | a :: l, c, r, h => by
    by_cases hp : p a
    · rw [List.dropWhile_cons_of_pos hp] at h
      exact dropWhile_head_false p l c r h
    · rw [List.dropWhile_cons_of_neg hp] at h
      cases h
      exact Bool.not_eq_true _ ▸ (by simpa using hp)

/-- Removing the trailing whitespace run splits the list into the kept
part and an all-whitespace tail. -/
theorem dropTrailWs_decomp (l : Str) :
    ∃ t, l = dropTrailWs l ++ t ∧ ∀ c ∈ t, pyWs c = true := by
  refine ⟨(l.reverse.takeWhile pyWs).reverse, ?_, ?_⟩
  · conv_lhs => rw [← l.reverse_reverse,
      ← List.takeWhile_append_dropWhile (p := pyWs) (l := l.reverse),
      List.reverse_append]
    simp [dropTrailWs]
  · intro c hc
    exact List.mem_takeWhile_imp (by simpa using hc)

/-- A list starting with a non-whitespace character does not strip to
the empty list. -/
theorem pyStrip_cons_ne_nil (c : Char) (r : Str) (hc : pyWs c = false) :
    pyStrip (c :: r) ≠ [] := by
  intro h
  have h1 : (c :: r).dropWhile pyWs = c :: r := List.dropWhile_cons_of_neg (by simp [hc])
  rw [pyStrip, h1] at h
  obtain ⟨t, ht, hws⟩ := dropTrailWs_decomp (c :: r)
  rw [h, List.nil_append] at ht
  have : pyWs c = true := hws c (ht ▸ List.mem_cons_self c r)
  rw [hc] at this
  exact Bool.false_ne_true this

/-- Every line terminator is whitespace. -/
theorem lineTerm_ws (c : Char) (h : lineTerm c = true) : pyWs c = true := by
  unfold lineTerm at h
  unfold pyWs
  simp only [Bool.or_eq_true, beq_iff_eq] at h ⊢
  omega

/-- A nonempty stripped string has a non-whitespace head. -/
theorem pyStrip_head (g : Str) (h : pyStrip g ≠ []) :
    ∃ c r, pyStrip g = c :: r ∧ pyWs c = false := by
  cases hs : pyStrip g with
  | nil => exact absurd hs h
  | cons c r =>
    refine ⟨c, r, rfl, ?_⟩
    obtain ⟨t, ht, _⟩ := dropTrailWs_decomp (g.dropWhile pyWs)
    rw [pyStrip] at hs
    have : g.dropWhile pyWs = (c :: r) ++ t := by rw [← hs, ← ht]
    exact dropWhile_head_false pyWs g c (r ++ t) this

/-- C9: the all-blank branch of `split_title_and_body` is unreachable —
whenever the stripped input is nonempty, some split line is non-blank
after trimming, so the title-index search succeeds (at the first line). -/
theorem C9_no_blank_line_unreachable (g : Str) (h : pyStrip g ≠ []) :
    (splitlines (pyStrip g)).findIdx? (fun ln => !(pyStrip ln).isEmpty) ≠ none := by
  obtain ⟨c, r, hs, hc⟩ := pyStrip_head g h
  rw [hs, splitlines_cons]
  have hterm : lineTerm c = false := by
    cases ht : lineTerm c with
    | false => rfl
    | true => rw [lineTerm_ws c ht] at hc; exact absurd hc (by simp)
  have hline : (c :: r).takeWhile (fun d => !lineTerm d) =
      c :: r.takeWhile (fun d => !lineTerm d) :=
    List.takeWhile_cons_of_pos (by simp [hterm])
  have hne : pyStrip ((c :: r).takeWhile (fun d => !lineTerm d)) ≠ [] := by
    rw [hline]
    exact pyStrip_cons_ne_nil c _ hc
  simp only []
  by_cases h0 : ((c :: r).dropWhile (fun d => !lineTerm d)).isEmpty
  · rw [if_pos h0]
    simp [List.findIdx?, hne]
  · rw [if_neg h0]
    by_cases h2 : startsCrLf ((c :: r).dropWhile (fun d => !lineTerm d))
    · rw [if_pos h2]
      simp [List.findIdx?_cons, hne]
    · rw [if_neg h2]
      simp [List.findIdx?_cons, hne]

/-- Witness for C9 at a one-character input. -/
theorem C9_no_blank_line_unreachable_witness :
    (splitlines (pyStrip "x".data)).findIdx? (fun ln => !(pyStrip ln).isEmpty) ≠ none :=
  C9_no_blank_line_unreachable "x".data (by decide)

/-- C6: if the first non-blank line, after label stripping, has length
outside `[4, 90]`, the returned title is the fallback; if inside, the
stripped candidate itself is the title; either way the body is the lines
strictly after the title line, joined with newlines and trimmed. -/
theorem C6_title_bounds (g fb : Str) (i : Nat)
    (hst : pyStrip g ≠ [])
    (hidx : (splitlines (pyStrip g)).findIdx?
      (fun ln => !(pyStrip ln).isEmpty) = some i) :
    ((stripTitlePfx ((splitlines (pyStrip g)).getD i [])).length < 4 ∨
        90 < (stripTitlePfx ((splitlines (pyStrip g)).getD i [])).length →
      split_title_and_body g fb =
        (fb, pyStrip (joinNl
          ((splitlines (pyStrip g)).drop (i + 1))))) ∧
    (4 ≤ (stripTitlePfx ((splitlines (pyStrip g)).getD i [])).length ∧
        (stripTitlePfx ((splitlines (pyStrip g)).getD i [])).length ≤ 90 →
      split_title_and_body g fb =
        (stripTitlePfx ((splitlines (pyStrip g)).getD i []),
         pyStrip (joinNl
          ((splitlines (pyStrip g)).drop (i + 1))))) := by
  unfold split_title_and_body
  rw [if_neg hst]
  simp only [hidx]
  constructor
  · intro hlen
    rw [if_pos hlen]
  · intro hlen
    rw [if_neg (by omega)]

/-- Witness for C6 at a concrete generated text with a 10-character
title line. -/
theorem C6_title_bounds_witness :
    split_title_and_body "Good Title\nbody here".data "FB".data =
      ("Good Title".data, "body here".data) :=
  ((C6_title_bounds "Good Title\nbody here".data "FB".data 0
    (by decide) (by decide)).2 (by decide)).trans (by decide)

/-- The escape of one character never contains `<`. -/
theorem escChar_no_lt (d : Char) : ∀ c ∈ escChar d, c ≠ '<' := by
  unfold escChar
  by_cases h1 : d = '&'
  · rw [if_pos h1]; decide
  · rw [if_neg h1]
    by_cases h2 : d = '<'
    · rw [if_pos h2]; decide
    · rw [if_neg h2]
      by_cases h3 : d = '>'
      · rw [if_pos h3]; decide
      · rw [if_neg h3]
        intro c hc
        have : c = d := by simpa using hc
        rw [this]
        exact h2

/-- Escaped text never contains `<`. -/
theorem esc_no_lt (s : Str) : ∀ c ∈ esc s, c ≠ '<' := by
  intro c hc
  unfold esc at hc
  rw [List.mem_flatMap] at hc
  obtain ⟨d, _, hd⟩ := hc
  exact escChar_no_lt d c hd

/-- A `<`-free string has no `<`-pair at all. -/
theorem noPairLt_of_no_lt (b : Char) :
    ∀ l : Str, (∀ c ∈ l, c ≠ '<') → noPairLt b l = true
  | [], _ => rfl
  | [_], _ => rfl
  | x :: y :: r, h => by
    show (!(x == '<' && y == b) && noPairLt b (y :: r)) = true
    rw [Bool.and_eq_true, Bool.not_eq_true']
    refine ⟨?_, noPairLt_of_no_lt b (y :: r) (fun c hc => h c (by simp [hc]))⟩
    have hx : (x == '<') = false := beq_eq_false_iff_ne.2 (h x (by simp))
    rw [hx, Bool.false_and]

/-- Unfolding of `noPairLt` on a cons cell. -/
theorem noPairLt_cons (b x : Char) (l : Str) :
    noPairLt b (x :: l) = true ↔
      noPairLt b l = true ∧
        ∀ y, l.head? = some y → (x == '<' && y == b) = false := by
  cases l with
  | nil => simp [noPairLt]
  | cons y r =>
    show (!(x == '<' && y == b) && noPairLt b (y :: r)) = true ↔ _
    rw [Bool.and_eq_true, Bool.not_eq_true']
    constructor
    · rintro ⟨h1, h2⟩
      refine ⟨h2, ?_⟩
      intro z hz
      rw [List.head?_cons] at hz
      cases hz
      exact h1
    · rintro ⟨h1, h2⟩
      exact ⟨h2 y rfl, h1⟩

/-- The tail of a pair-free string is pair-free. -/
theorem noPairLt_tail (b x : Char) (l : Str) (h : noPairLt b (x :: l) = true) :
    noPairLt b l = true :=
  ((noPairLt_cons b x l).1 h).1

/-- Pair-freedom is closed under dropping a prefix. -/
theorem noPairLt_drop (b : Char) :
    ∀ (k : Nat) (l : Str), noPairLt b l = true → noPairLt b (l.drop k) = true
  | 0, _, h => h
  | _ + 1, [], _ => rfl
  | k + 1, x :: l, h => by
    rw [List.drop_succ_cons]
    exact noPairLt_drop b k l (noPairLt_tail b x l h)

/-- Pair-freedom is closed under taking an initial segment. -/
theorem noPairLt_of_append (b : Char) :
    ∀ (l1 l2 : Str), noPairLt b (l1 ++ l2) = true → noPairLt b l1 = true
  | [], _, _ => rfl
  | [_], _, _ => rfl
  | x :: y :: r, l2, h => by
    simp only [List.cons_append] at h
    have h1 := (noPairLt_cons b x ((y :: r) ++ l2)).1 h
    rw [noPairLt_cons]
    refine ⟨noPairLt_of_append b (y :: r) l2 h1.1, ?_⟩
    intro z hz
    cases hz
    exact h1.2 y rfl

/-- Gluing pair-free strings whose boundary is harmless. -/
theorem noPairLt_append (b : Char) :
    ∀ (l1 l2 : Str), noPairLt b l1 = true → noPairLt b l2 = true →
      (∀ y, l2.head? = some y → y = b → l1.getLast? ≠ some '<') →
      noPairLt b (l1 ++ l2) = true
  | [], l2, _, h2, _ => h2
  | [x], l2, h1, h2, hb => by
    rw [List.singleton_append, noPairLt_cons]
    refine ⟨h2, ?_⟩
    intro y hy
    by_cases hx : x = '<'
    · by_cases hyb : y = b
      · exact absurd (by subst hx; rfl) (hb y hy hyb)
      · rw [beq_eq_false_iff_ne.2 hyb, Bool.and_false]
    · rw [beq_eq_false_iff_ne.2 hx, Bool.false_and]
  | x :: y :: r, l2, h1, h2, hb => by
    have h1c := (noPairLt_cons b x (y :: r)).1 h1
    rw [List.cons_append, noPairLt_cons]
    refine ⟨noPairLt_append b (y :: r) l2 h1c.1 h2 ?_, ?_⟩
    · intro z hz hzb
      have := hb z hz hzb
      rw [List.getLast?_cons_cons] at this
      exact this
    · intro z hz
      rw [List.cons_append, List.head?_cons] at hz
      cases hz
      exact h1c.2 y rfl

/-- A wrapped escape `pre ++ esc s ++ post` is pair-free when the fixed
fragments are and `pre`/`esc` end harmlessly. -/
theorem noPairLt_wrap (b : Char) (pre post m : Str)
    (hpre : noPairLt b pre = true) (hpost : noPairLt b post = true)
    (hm : ∀ c ∈ m, c ≠ '<')
    (hlast : pre.getLast? ≠ some '<') :
    noPairLt b (pre ++ m ++ post) = true := by
  rw [List.append_assoc]
  apply noPairLt_append b pre (m ++ post) hpre
  · apply noPairLt_append b m post (noPairLt_of_no_lt b m hm) hpost
    intro y _ _
    intro hLast
    have hx : '<' ∈ m.getLast? := by rw [Option.mem_def]; exact hLast
    obtain ⟨hne, heq⟩ := List.mem_getLast?_eq_getLast hx
    have : '<' ∈ m := heq ▸ List.getLast_mem hne
    exact hm '<' this rfl
  · intro y _ _
    exact hlast

/-- A wrapped escape around fixed tags, with the escape inlined. -/
theorem noPairLt_wrapTag (b : Char) (pre post m : Str)
    (h1 : noPairLt b pre = true) (h2 : noPairLt b post = true)
    (h3 : pre.getLast? ≠ some '<') :
    noPairLt b (pre ++ esc m ++ post) = true :=
  noPairLt_wrap b pre post (esc m) h1 h2 (esc_no_lt m) h3

/-- Membership in a two-element list of fragments. -/
theorem mem_pair_list {p a c : Str} (h : p ∈ [a, c]) : p = a ∨ p = c := by
  simpa using h

/-- Every fragment the table flush emits avoids the pair `<s`. -/
theorem flushParts_noPair_s (rows : List (List Str)) :
    ∀ p ∈ flushParts rows, noPairLt 's' p = true := by
  intro p hp
  cases rows with
  | nil => simp [flushParts] at hp
  | cons header body =>
    unfold flushParts at hp
    rcases List.mem_append.1 hp with h4 | h4
    rotate_left
    · have : p = "</tbody></table>".data := by simpa using h4
      subst this; decide
    rcases List.mem_append.1 h4 with h3 | h3
    rotate_left
    · obtain ⟨r, _, hr⟩ := List.mem_flatMap.1 h3
      rcases List.mem_append.1 hr with h2 | h2
      rotate_left
      · have : p = "</tr>".data := by simpa using h2
        subst this; decide
      rcases List.mem_append.1 h2 with h1 | h1
      · have : p = "<tr>".data := by simpa using h1
        subst this; decide
      · obtain ⟨c, _, hc⟩ := List.mem_map.1 h1
        rw [← hc]
        exact noPairLt_wrapTag 's' tdOpenTag "</td>".data c
          (by decide) (by decide) (by decide)
    rcases List.mem_append.1 h3 with h2 | h2
    rotate_left
    · rcases mem_pair_list h2 with h | h
      · subst h; decide
      · subst h; decide
    rcases List.mem_append.1 h2 with h1 | h1
    · rcases mem_pair_list h1 with h | h
      · subst h; decide
      · subst h; decide
    · obtain ⟨c, _, hc⟩ := List.mem_map.1 h1
      rw [← hc]
      exact noPairLt_wrapTag 's' thOpenTag "</th>".data c
        (by decide) (by decide) (by decide)

/-- Every fragment a non-table line emits avoids the pair `<s`. -/
theorem lineParts_noPair_s (s ln : Str) :
    ∀ p ∈ lineParts s ln, noPairLt 's' p = true := by
  intro p hp
  unfold lineParts at hp
  by_cases c1 : s = []
  · rw [if_pos c1] at hp
    have : p = "<br/>".data := by simpa using hp
    subst this; decide
  · rw [if_neg c1] at hp
    by_cases c2 : s.take 4 = "### ".data
    · rw [if_pos c2] at hp
      have : p = h3OpenTag ++ esc (s.drop 4) ++ "</h3>".data := by simpa using hp
      subst this
      exact noPairLt_wrapTag 's' h3OpenTag "</h3>".data _ (by decide) (by decide) (by decide)
    · rw [if_neg c2] at hp
      by_cases c3 : s.take 3 = "## ".data
      · rw [if_pos c3] at hp
        have : p = h2OpenTag ++ esc (s.drop 3) ++ "</h2>".data := by simpa using hp
        subst this
        exact noPairLt_wrapTag 's' h2OpenTag "</h2>".data _ (by decide) (by decide) (by decide)
      · rw [if_neg c3] at hp
        by_cases c4 : s.take 2 = "# ".data
        · rw [if_pos c4] at hp
          have : p = h1OpenTag ++ esc (s.drop 2) ++ "</h1>".data := by simpa using hp
          subst this
          exact noPairLt_wrapTag 's' h1OpenTag "</h1>".data _ (by decide) (by decide) (by decide)
        · rw [if_neg c4] at hp
          by_cases c5 : s.head? = some '>'
          · rw [if_pos c5] at hp
            have : p = bqOpenTag ++ esc (pyStrip (s.drop 1)) ++ "</blockquote>".data := by
              simpa using hp
            subst this
            exact noPairLt_wrapTag 's' bqOpenTag "</blockquote>".data _
              (by decide) (by decide) (by decide)
          · rw [if_neg c5] at hp
            by_cases c6 : s.take 2 = "- ".data
            · rw [if_pos c6] at hp
              simp only [List.mem_cons, List.not_mem_nil, or_false] at hp
              rcases hp with h | h | h
              · subst h; decide
              · subst h
                exact noPairLt_wrapTag 's' liOpenTag "</li>".data _
                  (by decide) (by decide) (by decide)
              · subst h; decide
            · rw [if_neg c6] at hp
              have : p = pOpenTag ++ esc ln ++ "</p>".data := by simpa using hp
              subst this
              exact noPairLt_wrapTag 's' pOpenTag "</p>".data _
                (by decide) (by decide) (by decide)

/-- Every fragment a non-table line emits avoids the pair `<t`. -/
theorem lineParts_noPair_t (s ln : Str) :
    ∀ p ∈ lineParts s ln, noPairLt 't' p = true := by
  intro p hp
  unfold lineParts at hp
  by_cases c1 : s = []
  · rw [if_pos c1] at hp
    have : p = "<br/>".data := by simpa using hp
    subst this; decide
  · rw [if_neg c1] at hp
    by_cases c2 : s.take 4 = "### ".data
    · rw [if_pos c2] at hp
      have : p = h3OpenTag ++ esc (s.drop 4) ++ "</h3>".data := by simpa using hp
      subst this
      exact noPairLt_wrapTag 't' h3OpenTag "</h3>".data _ (by decide) (by decide) (by decide)
    · rw [if_neg c2] at hp
      by_cases c3 : s.take 3 = "## ".data
      · rw [if_pos c3] at hp
        have : p = h2OpenTag ++ esc (s.drop 3) ++ "</h2>".data := by simpa using hp
        subst this
        exact noPairLt_wrapTag 't' h2OpenTag "</h2>".data _ (by decide) (by decide) (by decide)
      · rw [if_neg c3] at hp
        by_cases c4 : s.take 2 = "# ".data
        · rw [if_pos c4] at hp
          have : p = h1OpenTag ++ esc (s.drop 2) ++ "</h1>".data := by simpa using hp
          subst this
          exact noPairLt_wrapTag 't' h1OpenTag "</h1>".data _ (by decide) (by decide) (by decide)
        · rw [if_neg c4] at hp
          by_cases c5 : s.head? = some '>'
          · rw [if_pos c5] at hp
            have : p = bqOpenTag ++ esc (pyStrip (s.drop 1)) ++ "</blockquote>".data := by
              simpa using hp
            subst this
            exact noPairLt_wrapTag 't' bqOpenTag "</blockquote>".data _
              (by decide) (by decide) (by decide)
          · rw [if_neg c5] at hp
            by_cases c6 : s.take 2 = "- ".data
            · rw [if_pos c6] at hp
              simp only [List.mem_cons, List.not_mem_nil, or_false] at hp
              rcases hp with h | h | h
              · subst h; decide
              · subst h
                exact noPairLt_wrapTag 't' liOpenTag "</li>".data _
                  (by decide) (by decide) (by decide)
              · subst h; decide
            · rw [if_neg c6] at hp
              have : p = pOpenTag ++ esc ln ++ "</p>".data := by simpa using hp
              subst this
              exact noPairLt_wrapTag 't' pOpenTag "</p>".data _
                (by decide) (by decide) (by decide)

/-- Every fragment the renderer emits avoids the pair `<s`. -/
theorem renderLines_noPair_s :
    ∀ (lines : List Str) (inT : Bool) (rows : List (List Str)),
      ∀ p ∈ renderLines inT rows lines, noPairLt 's' p = true
  | [], inT, rows => by
    intro p hp
    simp only [renderLines] at hp
    by_cases h : inT
    · rw [if_pos h] at hp
      exact flushParts_noPair_s rows p hp
    · rw [if_neg h] at hp
      simp at hp
  | ln :: rest, inT, rows => by
    intro p hp
    simp only [renderLines] at hp
    by_cases h1 : sepMatch (pyStrip ln)
    · rw [if_pos h1] at hp
      exact renderLines_noPair_s rest inT rows p hp
    · rw [if_neg h1] at hp
      by_cases h2 : isTableRow (pyStrip ln)
      · rw [if_pos h2] at hp
        exact renderLines_noPair_s rest true _ p hp
      · rw [if_neg h2] at hp
        rcases List.mem_append.1 hp with hq | hq
        · rcases List.mem_append.1 hq with hq2 | hq2
          · by_cases h3 : inT
            · rw [if_pos h3] at hq2
              exact flushParts_noPair_s rows p hq2
            · rw [if_neg h3] at hq2
              simp at hq2
          · exact lineParts_noPair_s (pyStrip ln) ln p hq2
        · exact renderLines_noPair_s rest false [] p hq

/-- With no table row among the lines, every fragment the renderer emits
avoids the pair `<t` (the table branch is never taken). -/
theorem renderLines_noPair_t :
    ∀ lines : List Str,
      (∀ ln ∈ lines, sepMatch (pyStrip ln) = true ∨ isTableRow (pyStrip ln) = false) →
      ∀ p ∈ renderLines false [] lines, noPairLt 't' p = true
  | [], _ => by
    intro p hp
    simp [renderLines] at hp
  | ln :: rest, h => by
    intro p hp
    simp only [renderLines] at hp
    by_cases h1 : sepMatch (pyStrip ln)
    · rw [if_pos h1] at hp
      exact renderLines_noPair_t rest (fun l hl => h l (by simp [hl])) p hp
    · rw [if_neg h1] at hp
      have h2 : isTableRow (pyStrip ln) = false := by
        rcases h ln (by simp) with hx | hx
        · exact absurd hx h1
        · exact hx
      rw [if_neg (by simp [h2])] at hp
      rcases List.mem_append.1 hp with hq | hq
      · rcases List.mem_append.1 hq with hq2 | hq2
        · simp at hq2
        · exact lineParts_noPair_t (pyStrip ln) ln p hq2
      · exact renderLines_noPair_t rest (fun l hl => h l (by simp [hl])) p hq

/-- Prepending a non-`<` character keeps pair-freedom. -/
theorem noPairLt_cons_of (b x : Char) (l : Str) (hx : x ≠ '<')
    (h : noPairLt b l = true) : noPairLt b (x :: l) = true := by
  rw [noPairLt_cons]
  refine ⟨h, ?_⟩
  intro y _
  rw [beq_eq_false_iff_ne.2 hx, Bool.false_and]

/-- Joining pair-free fragments with newlines stays pair-free. -/
theorem noPairLt_joinNl (b : Char) (hb : b ≠ '\n') :
    ∀ parts : List Str, (∀ p ∈ parts, noPairLt b p = true) →
      noPairLt b (joinNl parts) = true
  | [], _ => rfl
  | [p], h => h p (by simp)
  | p :: q :: rest, h => by
    show noPairLt b (p ++ '\n' :: joinNl (q :: rest)) = true
    apply noPairLt_append b p ('\n' :: joinNl (q :: rest)) (h p (by simp))
    · apply noPairLt_cons_of b '\n' _ (by decide)
      exact noPairLt_joinNl b hb (q :: rest) (fun r hr => h r (by simp [hr]))
    · intro y hy hyb
      rw [List.head?_cons] at hy
      cases hy
      exact absurd hyb.symm hb

/-- A `dropWhile` is a `drop`. -/
theorem dropWhile_eq_drop (p : Char → Bool) :
    ∀ l : Str, ∃ k, l.dropWhile p = l.drop k
  | [] => ⟨0, rfl⟩
  | c :: rest => by
    by_cases h : p c
    · obtain ⟨k, hk⟩ := dropWhile_eq_drop p rest
      exact ⟨k + 1, by rw [List.dropWhile_cons_of_pos h, List.drop_succ_cons, hk]⟩
    · exact ⟨0, by rw [List.dropWhile_cons_of_neg h, List.drop_zero]⟩

/-- The remainder of a `<br/>`-run parse is a suffix of the input. -/
theorem brRepsF_drop :
    ∀ (n : Nat) (l : Str), ∃ k, (brRepsF n l).2 = l.drop k
  | n, [] => by
    cases n <;> exact ⟨0, rfl⟩
  | 0, c :: rest => ⟨0, rfl⟩
  | n + 1, c :: rest => by
    simp only [brRepsF]
    by_cases h : (c :: rest).take 5 = "<br/>".data
    · rw [if_pos h]
      obtain ⟨j, hj⟩ := dropWhile_eq_drop pyWs ((c :: rest).drop 5)
      obtain ⟨k, hk⟩ := brRepsF_drop n (((c :: rest).drop 5).dropWhile pyWs)
      refine ⟨k + (j + 5), ?_⟩
      simp only []
      rw [hk, hj, List.drop_drop, List.drop_drop]
      congr 1
      omega
    · rw [if_neg h]
      exact ⟨0, rfl⟩

/-- Pair-freedom survives the `<br/>`-run parse remainder. -/
theorem noPairLt_brReps (b : Char) (l : Str) (h : noPairLt b l = true) :
    noPairLt b (brReps l).2 = true := by
  obtain ⟨k, hk⟩ := brRepsF_drop l.length l
  rw [brReps, hk]
  exact noPairLt_drop b k l h

/-- A positive `<br/>`-run starts with the literal `"<br/>"`. -/
theorem brReps_pos_take (c : Char) (rest : Str)
    (h : 1 ≤ (brReps (c :: rest)).1) : (c :: rest).take 5 = "<br/>".data := by
  by_cases h2 : (c :: rest).take 5 = "<br/>".data
  · exact h2
  · rw [brReps_cons, if_neg h2] at h
    simp at h

/-- The collapse of `<br/>`-runs keeps the head character. -/
theorem collapseBrRuns_head :
    ∀ l : Str, (collapseBrRuns l).head? = l.head?
  | [] => rfl
  | c :: rest => by
    rw [collapseBrRuns_cons]
    by_cases h : 3 ≤ (brReps (c :: rest)).1
    · rw [if_pos h]
      have ht := brReps_pos_take c rest (by omega)
      have hc : c = '<' := by
        have := congrArg (fun l => l.head?) ht
        simpa using this
      rw [hc]
      rfl
    · rw [if_neg h]
      rfl

/-- The collapse of `<br/>`-runs preserves pair-freedom for targets other
than `<` and `b`. -/
theorem collapseBrRuns_noPair (b : Char) (hb1 : b ≠ '<') (hb2 : b ≠ 'b') :
    ∀ l : Str, noPairLt b l = true → noPairLt b (collapseBrRuns l) = true
  | [], _ => rfl
  | c :: rest, h => by
    rw [collapseBrRuns_cons]
    by_cases h3 : 3 ≤ (brReps (c :: rest)).1
    · rw [if_pos h3]
      have hrec : noPairLt b (collapseBrRuns ((brReps (c :: rest)).2)) = true :=
        collapseBrRuns_noPair b hb1 hb2 _ (noPairLt_brReps b _ h)
      apply noPairLt_append b _ _ _ hrec
      · intro y _ hyb
        intro hlast
        have : ('>' : Char) = '<' := by simpa using hlast
        simp at this
      · show noPairLt b "<br/><br/>".data = true
        simp only [noPairLt, beq_iff_eq, String.data]
        rw [beq_eq_false_iff_ne.2 (fun hx => hb2 hx.symm)]
        simp
    · rw [if_neg h3]
      have hrec : noPairLt b (collapseBrRuns rest) = true :=
        collapseBrRuns_noPair b hb1 hb2 rest (noPairLt_tail b c rest h)
      rw [noPairLt_cons]
      refine ⟨hrec, ?_⟩
      intro y hy
      rw [collapseBrRuns_head] at hy
      exact ((noPairLt_cons b c rest).1 h).2 y hy
termination_by l => l.length
decreasing_by
  · have hlen := brReps_len (c :: rest)
    simp only [List.length_cons] at hlen ⊢
    omega
  · simp only [List.length_cons]; omega

/-- Pair-freedom survives a Python strip. -/
theorem noPairLt_pyStrip (b : Char) (l : Str) (h : noPairLt b l = true) :
    noPairLt b (pyStrip l) = true := by
  obtain ⟨k, hk⟩ := dropWhile_eq_drop pyWs l
  have h1 : noPairLt b (l.dropWhile pyWs) = true := by
    rw [hk]; exact noPairLt_drop b k l h
  obtain ⟨t, ht, _⟩ := dropTrailWs_decomp (l.dropWhile pyWs)
  rw [pyStrip]
  exact noPairLt_of_append b _ t (ht ▸ h1)

/-- A pair-free string contains no substring starting `<` then `b`. -/
theorem isSubstr_pair_false (b : Char) (p : Str) :
    ∀ l : Str, noPairLt b l = true → isSubstr ('<' :: b :: p) l = false
  | [], _ => rfl
  | c :: rest, h => by
    show (('<' :: b :: p).isPrefixOf (c :: rest) || isSubstr ('<' :: b :: p) rest) = false
    rw [Bool.or_eq_false_iff]
    refine ⟨?_, isSubstr_pair_false b p rest (noPairLt_tail b c rest h)⟩
    show (('<' == c) && (b :: p).isPrefixOf rest) = false
    by_cases hc : c = '<'
    · subst hc
      cases rest with
      | nil => simp [List.isPrefixOf]
      | cons d r =>
        have hp := ((noPairLt_cons b '<' (d :: r)).1 h).2 d rfl
        rw [show (('<' : Char) == '<') = true from rfl, Bool.true_and] at hp
        have hbd : (b == d) = false :=
          beq_eq_false_iff_ne.2 (fun hx => (beq_eq_false_iff_ne.1 hp) hx.symm)
        show (('<' == '<') && ((b == d) && p.isPrefixOf r)) = false
        rw [hbd]
        simp
    · rw [beq_eq_false_iff_ne.2 (fun hx => hc hx.symm)]
      simp

/-- The rendered document never contains the pair `<s`, hence never an
unescaped `<script` tag. -/
theorem md_to_html_noPair_s (md : Str) :
    noPairLt 's' (md_to_html_for_naver md) = true := by
  unfold md_to_html_for_naver
  apply noPairLt_pyStrip
  apply collapseBrRuns_noPair 's' (by decide) (by decide)
  apply noPairLt_joinNl 's' (by decide)
  exact renderLines_noPair_s (mdLines md) false []

/-- C3: the renderer HTML-escapes all literal text: no rendered document
ever contains the substring `<script`, and rendering a paragraph line
containing `<script>` yields the escaped `&lt;script&gt;` in the
output. -/
theorem C3_html_escaping :
    (∀ md : Str, isSubstr "<script".data (md_to_html_for_naver md) = false) ∧
    isSubstr "&lt;script&gt;".data
      (md_to_html_for_naver "safety <script>tag</script> line".data) = true ∧
    isSubstr "<script".data
      (md_to_html_for_naver "safety <script>tag</script> line".data) = false := by
  refine ⟨?_, by decide, by decide⟩
  intro md
  exact isSubstr_pair_false 's' "cript".data _ (md_to_html_noPair_s md)

/-- C2 (amended): the three-line Markdown table renders to one `<table>`
whose header row has cells `A`, `B` and whose body has exactly one row
with cells `1`, `2`; a separator row is discarded when it matches the
separator regex `^\|\s*[-: ]+\|\s*[-:| ]+\|?$`, which requires at least
two column segments — the two-column `|---|---|` matches and renders to
nothing; and an input none of whose lines is buffered as a table row
renders with no `<table>` at all. -/
theorem C2_table_round_trip :
    (countSubstr "<table".data
        (md_to_html_for_naver "| A | B |\n|---|---|\n| 1 | 2 |".data) = 1 ∧
      countSubstr "<tr>".data
        (md_to_html_for_naver "| A | B |\n|---|---|\n| 1 | 2 |".data) = 2 ∧
      countSubstr "<th ".data
        (md_to_html_for_naver "| A | B |\n|---|---|\n| 1 | 2 |".data) = 2 ∧
      countSubstr "<td ".data
        (md_to_html_for_naver "| A | B |\n|---|---|\n| 1 | 2 |".data) = 2 ∧
      isSubstr ">A</th>".data
        (md_to_html_for_naver "| A | B |\n|---|---|\n| 1 | 2 |".data) = true ∧
      isSubstr ">B</th>".data
        (md_to_html_for_naver "| A | B |\n|---|---|\n| 1 | 2 |".data) = true ∧
      isSubstr ">1</td>".data
        (md_to_html_for_naver "| A | B |\n|---|---|\n| 1 | 2 |".data) = true ∧
      isSubstr ">2</td>".data
        (md_to_html_for_naver "| A | B |\n|---|---|\n| 1 | 2 |".data) = true ∧
      sepMatch (pyStrip "|---|---|".data) = true ∧
      md_to_html_for_naver "|---|---|".data = []) ∧
    (∀ md : Str,
      (∀ ln ∈ mdLines md,
        sepMatch (pyStrip ln) = true ∨ isTableRow (pyStrip ln) = false) →
      isSubstr "<table".data (md_to_html_for_naver md) = false) := by
  constructor
  · exact ⟨by decide, by decide, by decide, by decide, by decide, by decide,
      by decide, by decide, by decide, by decide⟩
  · intro md h
    apply isSubstr_pair_false 't' "able".data
    unfold md_to_html_for_naver
    apply noPairLt_pyStrip
    apply collapseBrRuns_noPair 't' (by decide) (by decide)
    apply noPairLt_joinNl 't' (by decide)
    exact renderLines_noPair_t (mdLines md) h

/-- Witness for C2's empty-buffer clause at a table-free input. -/
theorem C2_table_round_trip_witness :
    isSubstr "<table".data (md_to_html_for_naver "hello world".data) = false :=
  C2_table_round_trip.2 "hello world".data (by decide)

/-- C2 counterexample: a single-column separator-like row is NOT
discarded.  `|---|` — a row whose only cell consists of dashes — fails
the separator regex (it has no second `[-:| ]+` segment after a second
pipe), even in its padded form `| --- |`; it is classified as a table
row with the single cell `---`, and rendering `"| A |\n|---|\n| 1 |"`
buffers it, producing three `<tr>` rows with the dashes visible in a
`<td>` cell.  This refutes the original claim's universal clause that a
row consisting only of dashes/colons/spaces never becomes a row. -/
theorem C2_table_round_trip_cex :
    sepMatch (pyStrip "|---|".data) = false ∧
      sepMatch (pyStrip "| --- |".data) = false ∧
      isTableRow (pyStrip "|---|".data) = true ∧
      rowCells (pyStrip "|---|".data) = ["---".data] ∧
      countSubstr "<tr>".data
        (md_to_html_for_naver "| A |\n|---|\n| 1 |".data) = 3 ∧
      isSubstr ">---</td>".data
        (md_to_html_for_naver "| A |\n|---|\n| 1 |".data) = true := by
  refine ⟨by decide, by decide, by decide, by decide, by decide, by decide⟩

/-- A word character is not whitespace. -/
theorem wordChar_not_ws (c : Char) (h : wordChar c = true) : pyWs c = false := by
  cases hpw : pyWs c with
  | false => rfl
  | true =>
    exfalso
    unfold pyWs at hpw
    unfold wordChar at h
    simp only [Bool.or_eq_true, Bool.and_eq_true, decide_eq_true_eq, beq_iff_eq] at hpw h
    omega

/-- A blank or tab is whitespace. -/
theorem htChar_ws (c : Char) (h : htChar c = true) : pyWs c = true := by
  unfold htChar at h
  unfold pyWs
  simp only [Bool.or_eq_true, beq_iff_eq] at h ⊢
  omega

/-- A word character is not a blank or tab. -/
theorem wordChar_not_ht (c : Char) (h : wordChar c = true) : htChar c = false := by
  cases hh : htChar c with
  | false => rfl
  | true =>
    have h1 := htChar_ws c hh
    have h2 := wordChar_not_ws c h
    rw [h1] at h2
    exact h2

/-- Whitespace characters are not word characters. -/
theorem ws_not_word (c : Char) (h : pyWs c = true) : wordChar c = false := by
  cases hw : wordChar c with
  | false => rfl
  | true => rw [wordChar_not_ws c hw] at h; exact absurd h (by simp)

/-- The colon-structure invariant established by the colon-spacing pass:
scanning left to right, a word character is never separated from a
following colon by whitespace, and a word-adjacent colon is followed by
exactly one space and a non-whitespace character — or ends the string
(possibly with the single space).  `normalize_spaces` re-applied to a
string with this structure only re-creates it. -/
def colonGood : Str → Bool
  | [] => true
  | c :: rest =>
    if wordChar c then
      if startsColon rest then
        if rest.tail.isEmpty then true
        else if rest.tail = [' '] then true
        else if rest.tail.head? = some ' ' then
          !(pyWs (rest.tail.tail.headD ' ')) && colonGood rest.tail.tail
        else false
      else !startsColon (rest.dropWhile pyWs) && colonGood rest
    else colonGood rest
termination_by l => l.length
decreasing_by
  · have h1 : (rest.tail.tail).length ≤ rest.length := by
      cases rest with
      | nil => simp
      | cons a r => cases r <;> simp <;> omega
    simp only [List.length_cons]
    omega
  · simp only [List.length_cons]; omega
  · simp only [List.length_cons]; omega

/-- `colonGood` on the empty string. -/
theorem colonGood_nil : colonGood [] = true := by
  rw [colonGood.eq_def]

/-- `colonGood` ignores a non-word head. -/
theorem colonGood_not_word (c : Char) (rest : Str) (hw : wordChar c = false) :
    colonGood (c :: rest) = colonGood rest := by
  rw [colonGood.eq_def]
  simp only []
  rw [if_neg (show ¬ wordChar c = true by simp [hw])]

/-- `colonGood` after a word character followed directly by a colon. -/
theorem colonGood_word_colon (c : Char) (r2 : Str) (hw : wordChar c = true) :
    colonGood (c :: ':' :: r2) =
      (if r2.isEmpty then true
       else if r2 = [' '] then true
       else if r2.head? = some ' ' then
         !(pyWs (r2.tail.headD ' ')) && colonGood r2.tail
       else false) := by
  rw [colonGood.eq_def]
  simp only []
  rw [if_pos hw, if_pos (show startsColon (':' :: r2) = true from rfl)]
  rfl

/-- `colonGood` after a word character not followed by a colon. -/
theorem colonGood_word_nocolon (c : Char) (rest : Str) (hw : wordChar c = true)
    (hr : startsColon rest = false) :
    colonGood (c :: rest) =
      (!startsColon (rest.dropWhile pyWs) && colonGood rest) := by
  rw [colonGood.eq_def]
  simp only []
  rw [if_pos hw, if_neg (show ¬ startsColon rest = true by simp [hr])]

/-- A list passing `startsColon` is a colon cons. -/
theorem startsColon_shape (l : Str) (h : startsColon l = true) :
    l = ':' :: l.tail := by
  unfold startsColon at h
  split at h
  · simp
  · exact absurd h (by simp)

/-- `startsColon` by head. -/
theorem startsColon_head (l : Str) : startsColon l = true ↔ l.head? = some ':' := by
  cases l with
  | nil => simp [startsColon]
  | cons a r =>
    constructor
    · intro h
      have := startsColon_shape (a :: r) h
      rw [this]
      rfl
    · intro h
      rw [List.head?_cons] at h
      cases h
      rfl

/-- `colonGood` is closed under tails. -/
theorem colonGood_tail (c : Char) (rest : Str)
    (h : colonGood (c :: rest) = true) : colonGood rest = true := by
  by_cases hw : wordChar c
  · by_cases hsc : startsColon rest
    · have hshape := startsColon_shape rest hsc
      rw [hshape] at h ⊢
      rw [colonGood_word_colon c rest.tail hw] at h
      rw [colonGood_not_word ':' rest.tail (by decide)]
      by_cases h0 : rest.tail.isEmpty
      · rw [List.isEmpty_iff] at h0
        rw [h0]
        exact colonGood_nil
      · rw [if_neg h0] at h
        by_cases h1 : rest.tail = [' ']
        · rw [h1]
          rw [colonGood_not_word ' ' [] (by decide)]
          exact colonGood_nil
        · rw [if_neg h1] at h
          by_cases h2 : rest.tail.head? = some ' '
          · rw [if_pos h2] at h
            rw [Bool.and_eq_true] at h
            cases hr : rest.tail with
            | nil => exact colonGood_nil
            | cons a t =>
              have ha : a = ' ' := by rw [hr, List.head?_cons] at h2; simpa using h2
              rw [ha]
              rw [colonGood_not_word ' ' t (by decide)]
              have := h.2
              rw [hr] at this
              simpa using this
          · rw [if_neg h2] at h
            simp at h
    · rw [colonGood_word_nocolon c rest hw (by simpa using hsc), Bool.and_eq_true] at h
      exact h.2
  · rw [colonGood_not_word c rest (by simpa using hw)] at h
    exact h

/-- No blank-or-tab immediately before a newline (the invariant
established by the second pass of `normalize_spaces`). -/
def noHtNl : Str → Bool
  | [] => true
  | [_] => true
  | x :: y :: r => !(htChar x && (y == '\n')) && noHtNl (y :: r)

/-- No run of three newlines (the invariant established by the third
pass of `normalize_spaces`). -/
def noTripleNl : Str → Bool
  | x :: y :: z :: r =>
    !((x == '\n') && (y == '\n') && (z == '\n')) && noTripleNl (y :: z :: r)
  | _ => true

/-- Neither end of the string is whitespace (the invariant established
by the final `strip`). -/
def strippedStr (l : Str) : Bool :=
  (match l.head? with | some c => !pyWs c | none => true) &&
  (match l.getLast? with | some c => !pyWs c | none => true)

/-- Unfolding of `noHtNl` on a cons cell. -/
theorem noHtNl_cons (x : Char) (l : Str) :
    noHtNl (x :: l) = true ↔
      noHtNl l = true ∧
        ∀ y, l.head? = some y → (htChar x && (y == '\n')) = false := by
  cases l with
  | nil => simp [noHtNl]
  | cons y r =>
    show (!(htChar x && (y == '\n')) && noHtNl (y :: r)) = true ↔ _
    rw [Bool.and_eq_true, Bool.not_eq_true']
    constructor
    · rintro ⟨h1, h2⟩
      refine ⟨h2, ?_⟩
      intro z hz
      rw [List.head?_cons] at hz
      cases hz
      exact h1
    · rintro ⟨h1, h2⟩
      exact ⟨h2 y rfl, h1⟩

/-- The tail of a `noHtNl` string. -/
theorem noHtNl_tail (x : Char) (l : Str) (h : noHtNl (x :: l) = true) :
    noHtNl l = true :=
  ((noHtNl_cons x l).1 h).1

/-- `noHtNl` survives dropping a prefix. -/
theorem noHtNl_drop (k : Nat) :
    ∀ l : Str, noHtNl l = true → noHtNl (l.drop k) = true := by
  induction k with
  | zero => intro l h; exact h
  | succ n ih =>
    intro l h
    cases l with
    | nil => exact rfl
    | cons x r =>
      rw [List.drop_succ_cons]
      exact ih r (noHtNl_tail x r h)

/-- `noHtNl` survives truncating to an initial segment. -/
theorem noHtNl_of_append :
    ∀ (l1 l2 : Str), noHtNl (l1 ++ l2) = true → noHtNl l1 = true
  | [], _, _ => rfl
  | [_], _, _ => rfl
  | x :: y :: r, l2, h => by
    simp only [List.cons_append] at h
    have h1 := (noHtNl_cons x ((y :: r) ++ l2)).1 h
    rw [noHtNl_cons]
    refine ⟨noHtNl_of_append (y :: r) l2 h1.1, ?_⟩
    intro z hz
    cases hz
    exact h1.2 y rfl

/-- Any adjacent pair inside a `noHtNl` string is harmless. -/
theorem noHtNl_pair :
    ∀ (u : Str) (x y : Char) (v : Str),
      noHtNl (u ++ x :: y :: v) = true → (htChar x && (y == '\n')) = false
  | [], x, y, v, h => by
    have := (noHtNl_cons x (y :: v)).1 (by simpa using h)
    exact this.2 y rfl
  | a :: u, x, y, v, h => by
    apply noHtNl_pair u x y v
    rw [List.cons_append] at h
    exact noHtNl_tail a _ h

/-- Appending a non-newline character preserves `noHtNl`. -/
theorem noHtNl_append_nonNl (c : Char) (hc : (c == '\n') = false) :
    ∀ l : Str, noHtNl l = true → noHtNl (l ++ [c]) = true
  | [], _ => rfl
  | [x], _ => by
    rw [List.singleton_append, noHtNl_cons]
    refine ⟨rfl, ?_⟩
    intro y hy
    cases hy
    rw [hc, Bool.and_false]
  | x :: y :: r, h => by
    rw [List.cons_append, noHtNl_cons]
    refine ⟨noHtNl_append_nonNl c hc (y :: r) (noHtNl_tail x _ h), ?_⟩
    intro z hz
    rw [List.cons_append, List.head?_cons] at hz
    cases hz
    exact ((noHtNl_cons x (y :: r)).1 h).2 y rfl

/-- Unfolding of `noTripleNl` on a cons cell. -/
theorem noTripleNl_cons (x : Char) (l : Str) :
    noTripleNl (x :: l) = true ↔
      noTripleNl l = true ∧
        ∀ y z r, l = y :: z :: r →
          ((x == '\n') && (y == '\n') && (z == '\n')) = false := by
  cases l with
  | nil => simp [noTripleNl]
  | cons y r =>
    cases r with
    | nil => simp [noTripleNl]
    | cons z t =>
      show (!((x == '\n') && (y == '\n') && (z == '\n')) && noTripleNl (y :: z :: t)) = true ↔ _
      rw [Bool.and_eq_true, Bool.not_eq_true']
      constructor
      · rintro ⟨h1, h2⟩
        refine ⟨h2, ?_⟩
        intro a b s hs
        cases hs
        exact h1
      · rintro ⟨h1, h2⟩
        exact ⟨h2 y z t rfl, h1⟩

/-- The tail of a `noTripleNl` string. -/
theorem noTripleNl_tail (x : Char) (l : Str) (h : noTripleNl (x :: l) = true) :
    noTripleNl l = true :=
  ((noTripleNl_cons x l).1 h).1

/-- `noTripleNl` survives dropping a prefix. -/
theorem noTripleNl_drop (k : Nat) :
    ∀ l : Str, noTripleNl l = true → noTripleNl (l.drop k) = true := by
  induction k with
  | zero => intro l h; exact h
  | succ n ih =>
    intro l h
    cases l with
    | nil => exact rfl
    | cons x r =>
      rw [List.drop_succ_cons]
      exact ih r (noTripleNl_tail x r h)

/-- `noTripleNl` survives truncating to an initial segment. -/
theorem noTripleNl_of_append :
    ∀ (l1 l2 : Str), noTripleNl (l1 ++ l2) = true → noTripleNl l1 = true
  | [], _, _ => rfl
  | [_], _, _ => rfl
  | [_, _], _, _ => rfl
  | x :: y :: z :: r, l2, h => by
    simp only [List.cons_append] at h
    have h1 := (noTripleNl_cons x ((y :: z :: r) ++ l2)).1 h
    rw [noTripleNl_cons]
    refine ⟨noTripleNl_of_append (y :: z :: r) l2 h1.1, ?_⟩
    intro a b s hs
    cases hs
    exact h1.2 y z (r ++ l2) rfl

/-- Appending a non-newline character preserves `noTripleNl`. -/
theorem noTripleNl_append_nonNl (c : Char) (hc : (c == '\n') = false) :
    ∀ l : Str, noTripleNl l = true → noTripleNl (l ++ [c]) = true
  | [], _ => rfl
  | [_], _ => rfl
  | [x, y], _ => by
    show noTripleNl [x, y, c] = true
    rw [noTripleNl_cons]
    refine ⟨by simp [noTripleNl], ?_⟩
    intro a b s hs
    cases hs
    rw [hc]
    simp
  | x :: y :: z :: r, h => by
    rw [List.cons_append, noTripleNl_cons]
    refine ⟨noTripleNl_append_nonNl c hc (y :: z :: r) (noTripleNl_tail x _ h), ?_⟩
    intro a b s hs
    rw [List.cons_append, List.cons_append] at hs
    cases hs
    exact ((noTripleNl_cons x (y :: z :: r)).1 h).2 y z r rfl

/-- `dropWhile` skips over a fully-satisfying prefix. -/
theorem dropWhile_append_ws (p : Char → Bool) :
    ∀ (a b : Str), (∀ c ∈ a, p c = true) →
      (a ++ b).dropWhile p = b.dropWhile p
  | [], _, _ => rfl
  | c :: a, b, h => by
    rw [List.cons_append, List.dropWhile_cons_of_pos (h c (by simp))]
    exact dropWhile_append_ws p a b (fun d hd => h d (by simp [hd]))

/-- `colonGood` ignores a non-word prefix. -/
theorem colonGood_append_nonword :
    ∀ (a z : Str), (∀ c ∈ a, wordChar c = false) →
      colonGood (a ++ z) = colonGood z
  | [], _, _ => rfl
  | c :: a, z, h => by
    rw [List.cons_append, colonGood_not_word c _ (h c (by simp))]
    exact colonGood_append_nonword a z (fun d hd => h d (by simp [hd]))

/-- `subColon` keeps the head character. -/
theorem subColon_head : ∀ l : Str, (subColon l).head? = l.head?
  | [] => rfl
  | c :: rest => by
    rw [subColon_cons]
    by_cases h : wordChar c && startsColon (rest.dropWhile pyWs)
    · rw [if_pos h]; rfl
    · rw [if_neg h]; rfl

/-- `subColon` sends cons cells to cons cells. -/
theorem subColon_ne_nil (c : Char) (rest : Str) : subColon (c :: rest) ≠ [] := by
  rw [subColon_cons]
  split <;> simp

/-- `subColon` commutes with skipping leading whitespace. -/
theorem subColon_ws_commute :
    ∀ l : Str, (subColon l).dropWhile pyWs = subColon (l.dropWhile pyWs)
  | [] => rfl
  | c :: rest => by
    by_cases hws : pyWs c
    · have hw : wordChar c = false := ws_not_word c hws
      rw [subColon_cons, if_neg (by simp [hw])]
      rw [List.dropWhile_cons_of_pos hws, List.dropWhile_cons_of_pos hws]
      exact subColon_ws_commute rest
    · rw [List.dropWhile_cons_of_neg hws]
      cases hs : subColon (c :: rest) with
      | nil => exact absurd hs (subColon_ne_nil c rest)
      | cons a t =>
        have ha : a = c := by
          have := subColon_head (c :: rest)
          rw [hs] at this
          simpa using this
        rw [List.dropWhile_cons_of_neg (by rw [ha]; simpa using hws), ← hs]
termination_by l => l.length

/-- `subTrailWs` sends cons cells to cons cells. -/
theorem subTrailWs_ne_nil (c : Char) (rest : Str) : subTrailWs (c :: rest) ≠ [] := by
  rw [subTrailWs_cons]
  split
  · split <;> simp
  · simp

/-- The head of `subTrailWs` is the original head or a newline. -/
theorem subTrailWs_head_or (c : Char) (rest : Str) :
    (subTrailWs (c :: rest)).head? = some c ∨
      (subTrailWs (c :: rest)).head? = some '\n' := by
  rw [subTrailWs_cons]
  by_cases h : htChar c
  · rw [if_pos h]
    by_cases h2 : startsNl (rest.dropWhile htChar)
    · rw [if_pos h2]; right; rfl
    · rw [if_neg h2]; left; rfl
  · rw [if_neg h]; left; rfl

/-- `subTrailWs` keeps the first non-whitespace character. -/
theorem subTrailWs_fnw_aux :
    ∀ (n : Nat) (l : Str), l.length ≤ n →
      ((subTrailWs l).dropWhile pyWs).head? = (l.dropWhile pyWs).head?
  | _, [], _ => rfl
  | 0, c :: rest, hn => by simp at hn
  | n + 1, c :: rest, hn => by
    have hlen : rest.length ≤ n := by simp at hn; omega
    have hd1 : (rest.dropWhile htChar).length ≤ rest.length := dropWhile_len_le htChar rest
    have hd2 : ((rest.dropWhile htChar).tail).length ≤ (rest.dropWhile htChar).length := by
      cases rest.dropWhile htChar <;> simp
    rw [subTrailWs_cons]
    by_cases h : htChar c
    · have hcw : pyWs c = true := htChar_ws c h
      have hrest : rest = rest.takeWhile htChar ++ rest.dropWhile htChar :=
        (List.takeWhile_append_dropWhile htChar rest).symm
      have htws : ∀ d ∈ rest.takeWhile htChar, pyWs d = true := by
        intro d hd
        exact htChar_ws d (List.mem_takeWhile_imp hd)
      rw [if_pos h]
      by_cases h2 : startsNl (rest.dropWhile htChar)
      · rw [if_pos h2]
        have hX : rest.dropWhile htChar = '\n' :: (rest.dropWhile htChar).tail := by
          cases hx : rest.dropWhile htChar with
          | nil => rw [hx] at h2; exact absurd h2 (by simp [startsNl])
          | cons a t =>
            have ha : a = '\n' := by
              rw [hx] at h2
              unfold startsNl at h2
              split at h2
              · rename_i heq
                rw [show a = '\n' from by injection heq]
              · exact absurd h2 (by simp)
            rw [ha]
            rfl
        rw [List.dropWhile_cons_of_pos (show pyWs '\n' = true by decide)]
        rw [subTrailWs_fnw_aux n ((rest.dropWhile htChar).tail) (by omega)]
        rw [List.dropWhile_cons_of_pos hcw]
        conv_rhs => rw [hrest]
        rw [dropWhile_append_ws pyWs _ _ htws]
        conv_rhs => rw [hX]
        rw [List.dropWhile_cons_of_pos (show pyWs '\n' = true by decide)]
      · rw [if_neg h2]
        have hrun : ∀ d ∈ c :: rest.takeWhile htChar, pyWs d = true := by
          intro d hd
          rcases List.mem_cons.1 hd with h3 | h3
          · rw [h3]; exact hcw
          · exact htws d h3
        rw [show (c :: rest.takeWhile htChar) ++ subTrailWs (rest.dropWhile htChar) =
          (c :: rest.takeWhile htChar) ++ subTrailWs (rest.dropWhile htChar) from rfl]
        rw [dropWhile_append_ws pyWs _ _ hrun]
        rw [subTrailWs_fnw_aux n (rest.dropWhile htChar) (by omega)]
        rw [List.dropWhile_cons_of_pos hcw]
        conv_rhs => rw [hrest]
        rw [dropWhile_append_ws pyWs _ _ htws]
    · rw [if_neg h]
      by_cases hws : pyWs c
      · rw [List.dropWhile_cons_of_pos hws, List.dropWhile_cons_of_pos hws]
        exact subTrailWs_fnw_aux n rest hlen
      · rw [List.dropWhile_cons_of_neg hws, List.dropWhile_cons_of_neg hws]
        rfl

/-- `subTrailWs` keeps the first non-whitespace character. -/
theorem subTrailWs_fnw (l : Str) :
    ((subTrailWs l).dropWhile pyWs).head? = (l.dropWhile pyWs).head? :=
  subTrailWs_fnw_aux l.length l le_rfl

/-- `collapseNl` keeps the head character. -/
theorem collapseNl_head : ∀ l : Str, (collapseNl l).head? = l.head?
  | [] => rfl
  | c :: rest => by
    rw [collapseNl_cons]
    by_cases h : c = '\n'
    · rw [if_pos h]
      by_cases h2 : 2 ≤ (rest.takeWhile (fun d => d = '\n')).length
      · rw [if_pos h2, h]; rfl
      · rw [if_neg h2]; rfl
    · rw [if_neg h]; rfl

/-- `collapseNl` sends cons cells to cons cells. -/
theorem collapseNl_ne_nil (c : Char) (rest : Str) : collapseNl (c :: rest) ≠ [] := by
  rw [collapseNl_cons]
  split
  · split <;> simp
  · simp

/-- `collapseNl` keeps the first non-whitespace character. -/
theorem collapseNl_fnw_aux :
    ∀ (n : Nat) (l : Str), l.length ≤ n →
      ((collapseNl l).dropWhile pyWs).head? = (l.dropWhile pyWs).head?
  | _, [], _ => rfl
  | 0, c :: rest, hn => by simp at hn
  | n + 1, c :: rest, hn => by
    have hlen : rest.length ≤ n := by simp at hn; omega
    have hd1 : (rest.dropWhile (fun d => decide (d = '\n'))).length ≤ rest.length :=
      dropWhile_len_le _ rest
    rw [collapseNl_cons]
    by_cases h : c = '\n'
    · have hcw : pyWs c = true := by rw [h]; decide
      have hrest : rest = rest.takeWhile (fun d => d = '\n') ++
          rest.dropWhile (fun d => d = '\n') := (List.takeWhile_append_dropWhile _ rest).symm
      have htws : ∀ d ∈ rest.takeWhile (fun d => d = '\n'), pyWs d = true := by
        intro d hd
        have := List.mem_takeWhile_imp hd
        rw [show d = '\n' from by simpa using this]
        decide
      rw [if_pos h]
      by_cases h2 : 2 ≤ (rest.takeWhile (fun d => d = '\n')).length
      · rw [if_pos h2]
        rw [List.dropWhile_cons_of_pos (show pyWs '\n' = true by decide),
          List.dropWhile_cons_of_pos (show pyWs '\n' = true by decide)]
        rw [collapseNl_fnw_aux n (rest.dropWhile (fun d => d = '\n')) (by simpa using by omega)]
        rw [List.dropWhile_cons_of_pos hcw]
        conv_rhs => rw [hrest]
        rw [dropWhile_append_ws pyWs _ _ htws]
      · rw [if_neg h2]
        have hrun : ∀ d ∈ c :: rest.takeWhile (fun d => d = '\n'), pyWs d = true := by
          intro d hd
          rcases List.mem_cons.1 hd with h3 | h3
          · rw [h3]; exact hcw
          · exact htws d h3
        rw [dropWhile_append_ws pyWs _ _ hrun]
        rw [collapseNl_fnw_aux n (rest.dropWhile (fun d => d = '\n')) (by simpa using by omega)]
        rw [List.dropWhile_cons_of_pos hcw]
        conv_rhs => rw [hrest]
        rw [dropWhile_append_ws pyWs _ _ htws]
    · rw [if_neg h]
      by_cases hws : pyWs c
      · rw [List.dropWhile_cons_of_pos hws, List.dropWhile_cons_of_pos hws]
        exact collapseNl_fnw_aux n rest hlen
      · rw [List.dropWhile_cons_of_neg hws, List.dropWhile_cons_of_neg hws]
        rfl

/-- `collapseNl` keeps the first non-whitespace character. -/
theorem collapseNl_fnw (l : Str) :
    ((collapseNl l).dropWhile pyWs).head? = (l.dropWhile pyWs).head? :=
  collapseNl_fnw_aux l.length l le_rfl

/-- The head surviving `dropWhile pyWs` at the front of `subColon`. -/
theorem startsColon_subColon (l : Str)
    (h : startsColon l = false) : startsColon (subColon l) = false := by
  cases hl : l with
  | nil => rfl
  | cons a t =>
    cases hs : subColon (a :: t) with
    | nil => rfl
    | cons b u =>
      have hb : b = a := by
        have := subColon_head (a :: t)
        rw [hs] at this
        simpa using this
      rw [hb]
      cases hx : startsColon (a :: u) with
      | false => rfl
      | true =>
        have hsh := startsColon_shape _ hx
        have haa : a = ':' := by injection hsh
        rw [hl] at h
        rw [show startsColon (a :: t) = true from by rw [haa]; rfl] at h
        exact h

/-- The colon-spacing pass establishes the colon structure. -/
theorem colonGood_subColon_aux :
    ∀ (n : Nat) (l : Str), l.length ≤ n → colonGood (subColon l) = true
  | _, [], _ => colonGood_nil
  | 0, c :: rest, hn => by simp at hn
  | n + 1, c :: rest, hn => by
    have hlen : rest.length ≤ n := by simp at hn; omega
    rw [subColon_cons]
    by_cases hcond : wordChar c && startsColon (rest.dropWhile pyWs)
    · rw [if_pos hcond]
      have hw : wordChar c = true := by
        have hx := hcond
        rw [Bool.and_eq_true] at hx
        exact hx.1
      rw [colonGood_word_colon c _ hw]
      rw [if_neg (by simp)]
      cases hsub : subColon ((rest.dropWhile pyWs).tail.dropWhile pyWs) with
      | nil => rw [if_pos rfl]
      | cons e t =>
        rw [if_neg (by simp), if_pos (show (' ' :: e :: t).head? = some ' ' from rfl)]
        have hne : (rest.dropWhile pyWs).tail.dropWhile pyWs ≠ [] := by
          intro hx
          rw [hx] at hsub
          rw [show subColon [] = [] from rfl] at hsub
          exact absurd hsub (by simp)
        have he : pyWs e = false := by
          cases hx : (rest.dropWhile pyWs).tail.dropWhile pyWs with
          | nil => exact absurd hx hne
          | cons d r =>
            have hd := dropWhile_head_false pyWs _ d r hx
            have : e = d := by
              have h1 := subColon_head ((rest.dropWhile pyWs).tail.dropWhile pyWs)
              rw [hsub, hx] at h1
              simpa using h1
            rw [this]
            exact hd
        rw [Bool.and_eq_true]
        constructor
        · simp [he]
        · have := colonGood_subColon_aux n ((rest.dropWhile pyWs).tail.dropWhile pyWs)
            (by have := tail_dropWhile_len pyWs rest; omega)
          rw [hsub] at this
          simpa using this
    · rw [if_neg hcond]
      by_cases hw : wordChar c
      · have hsc : startsColon (rest.dropWhile pyWs) = false := by
          cases hx : startsColon (rest.dropWhile pyWs) with
          | false => rfl
          | true => rw [hw, hx] at hcond; simp at hcond
        have hscr : startsColon rest = false := by
          cases hr : rest with
          | nil => rfl
          | cons a t =>
            cases hx : startsColon (a :: t) with
            | false => rfl
            | true =>
              have ha := startsColon_shape (a :: t) hx
              have : (a :: t).dropWhile pyWs = a :: t := by
                rw [ha]
                exact List.dropWhile_cons_of_neg (by decide)
              rw [hr, this, hx] at hsc
              exact hsc
        rw [colonGood_word_nocolon c (subColon rest) hw (startsColon_subColon rest hscr)]
        rw [Bool.and_eq_true]
        constructor
        · rw [subColon_ws_commute rest]
          rw [startsColon_subColon (rest.dropWhile pyWs) hsc]
          rfl
        · exact colonGood_subColon_aux n rest hlen
      · rw [colonGood_not_word c _ (by simpa using hw)]
        exact colonGood_subColon_aux n rest hlen

/-- The colon-spacing pass establishes the colon structure. -/
theorem colonGood_subColon (l : Str) : colonGood (subColon l) = true :=
  colonGood_subColon_aux l.length l le_rfl

/-- On a string with good colon structure, the colon-spacing pass is the
identity, up to a possibly re-appended lone trailing space after a
string-final word-adjacent colon. -/
theorem subColon_fix_aux :
    ∀ (n : Nat) (l : Str), l.length ≤ n → colonGood l = true →
      subColon l = l ∨ subColon l = l ++ [' ']
  | _, [], _, _ => Or.inl rfl
  | 0, c :: rest, hn, _ => by simp at hn
  | n + 1, c :: rest, hn, h => by
    have hlen : rest.length ≤ n := by simp at hn; omega
    rw [subColon_cons]
    by_cases hw : wordChar c
    · by_cases hsc : startsColon rest
      · have hshape := startsColon_shape rest hsc
        have hdw : rest.dropWhile pyWs = rest := by
          rw [hshape]
          exact List.dropWhile_cons_of_neg (by decide)
        rw [if_pos (by rw [hdw]; simp [hw, hsc])]
        rw [hdw]
        rw [hshape] at h
        rw [colonGood_word_colon c rest.tail hw] at h
        by_cases h0 : rest.tail.isEmpty
        · rw [List.isEmpty_iff] at h0
          rw [h0]
          right
          rw [hshape, h0]
          rfl
        · rw [if_neg h0] at h
          by_cases h1 : rest.tail = [' ']
          · left
            rw [h1, hshape, h1]
            rfl
          · rw [if_neg h1] at h
            by_cases h2 : rest.tail.head? = some ' '
            · rw [if_pos h2] at h
              rw [Bool.and_eq_true] at h
              cases hr : rest.tail with
              | nil => rw [hr] at h0; simp at h0
              | cons a t =>
                have ha : a = ' ' := by rw [hr, List.head?_cons] at h2; simpa using h2
                cases ht : t with
                | nil =>
                  exfalso
                  rw [hr, ha, ht] at h1
                  exact h1 rfl
                | cons d r4 =>
                  have hgood : colonGood (d :: r4) = true := by
                    have := h.2
                    rw [hr, ht] at this
                    simpa using this
                  have hdws : pyWs d = false := by
                    have := h.1
                    rw [hr, ht] at this
                    simpa using this
                  have htail : (a :: d :: r4).dropWhile pyWs = d :: r4 := by
                    rw [ha]
                    rw [List.dropWhile_cons_of_pos (by decide)]
                    exact List.dropWhile_cons_of_neg (by simp [hdws])
                  rw [htail]
                  have hlen2 : (d :: r4).length ≤ n := by
                    have h3 := congrArg List.length hshape
                    have h4 := congrArg List.length hr
                    have h5 := congrArg List.length ht
                    simp only [List.length_cons] at h3 h4 h5 hn ⊢
                    omega
                  rcases subColon_fix_aux n (d :: r4) hlen2 hgood with hfix | hfix
                  · left
                    rw [hfix, hshape, hr, ha, ht]
                  · right
                    rw [hfix, hshape, hr, ha, ht]
                    simp
            · rw [if_neg h2] at h
              simp at h
      · have hdns : startsColon (rest.dropWhile pyWs) = false := by
          rw [colonGood_word_nocolon c rest hw (by simpa using hsc), Bool.and_eq_true] at h
          simpa using h.1
        rw [if_neg (by simp [hdns])]
        have hgood : colonGood rest = true := by
          rw [colonGood_word_nocolon c rest hw (by simpa using hsc), Bool.and_eq_true] at h
          exact h.2
        rcases subColon_fix_aux n rest hlen hgood with hfix | hfix
        · left; rw [hfix]
        · right; rw [hfix]; rfl
    · rw [if_neg (by simp [hw])]
      have hgood : colonGood rest = true := by
        rw [colonGood_not_word c rest (by simpa using hw)] at h
        exact h
      rcases subColon_fix_aux n rest hlen hgood with hfix | hfix
      · left; rw [hfix]
      · right; rw [hfix]; rfl

/-- Fixed-point form of the colon-spacing pass on structured strings. -/
theorem subColon_fix (l : Str) (h : colonGood l = true) :
    subColon l = l ∨ subColon l = l ++ [' '] :=
  subColon_fix_aux l.length l le_rfl h

/-- A list passing `startsNl` is a newline cons. -/
theorem startsNl_shape (l : Str) (h : startsNl l = true) :
    l = '\n' :: l.tail := by
  unfold startsNl at h
  split at h
  · simp
  · exact absurd h (by simp)

/-- A non-whitespace character is not a blank or tab. -/
theorem not_ws_not_ht (c : Char) (h : pyWs c = false) : htChar c = false := by
  cases hh : htChar c with
  | false => rfl
  | true =>
    have := htChar_ws c hh
    rw [h] at this
    exact this.symm

/-- `startsColon` only looks at the head. -/
theorem startsColon_eq_of_head (l1 l2 : Str) (h : l1.head? = l2.head?) :
    startsColon l1 = startsColon l2 := by
  cases l1 with
  | nil =>
    cases l2 with
    | nil => rfl
    | cons b t => simp at h
  | cons a s =>
    cases l2 with
    | nil => simp at h
    | cons b t =>
      simp only [List.head?_cons, Option.some.injEq] at h
      rw [h]
      cases hx : startsColon (b :: s) with
      | true =>
        have hb : b = ':' := by
          have := (startsColon_head (b :: s)).1 hx
          simpa using this
        rw [hb]
        rfl
      | false =>
        cases hy : startsColon (b :: t) with
        | false => rfl
        | true =>
          have hb : b = ':' := by
            have := (startsColon_head (b :: t)).1 hy
            simpa using this
          have hcl : startsColon (':' :: s) = true := rfl
          rw [hb, hcl] at hx
          exact hx.symm

/-- The trailing-blank pass preserves the colon structure. -/
theorem colonGood_subTrailWs_aux :
    ∀ (n : Nat) (l : Str), l.length ≤ n → colonGood l = true →
      colonGood (subTrailWs l) = true
  | _, [], _, _ => colonGood_nil
  | 0, c :: rest, hn, _ => by simp at hn
  | n + 1, c :: rest, hn, h => by
    have hlen : rest.length ≤ n := by simp at hn; omega
    have hd1 : (rest.dropWhile htChar).length ≤ rest.length := dropWhile_len_le htChar rest
    rw [subTrailWs_cons]
    by_cases hht : htChar c
    · have hcw : pyWs c = true := htChar_ws c hht
      have hword : wordChar c = false := ws_not_word c hcw
      have hgrest : colonGood rest = true := by
        rw [colonGood_not_word c rest hword] at h
        exact h
      have hrun_nw : ∀ d ∈ rest.takeWhile htChar, wordChar d = false := fun d hd =>
        ws_not_word d (htChar_ws d (List.mem_takeWhile_imp hd))
      have hgX : colonGood (rest.dropWhile htChar) = true := by
        conv at hgrest => rw [← List.takeWhile_append_dropWhile htChar rest]
        rw [colonGood_append_nonword _ _ hrun_nw] at hgrest
        exact hgrest
      rw [if_pos hht]
      by_cases hnl : startsNl (rest.dropWhile htChar)
      · rw [if_pos hnl]
        rw [colonGood_not_word '\n' _ (by decide)]
        have hXshape := startsNl_shape _ hnl
        have hgtail : colonGood ((rest.dropWhile htChar).tail) = true := by
          rw [hXshape, colonGood_not_word '\n' _ (by decide)] at hgX
          exact hgX
        have ht2 : ((rest.dropWhile htChar).tail).length ≤ n := by
          have : ((rest.dropWhile htChar).tail).length ≤ (rest.dropWhile htChar).length := by
            cases rest.dropWhile htChar <;> simp
          omega
        exact colonGood_subTrailWs_aux n _ ht2 hgtail
      · rw [if_neg hnl]
        have hrun2 : ∀ d ∈ c :: rest.takeWhile htChar, wordChar d = false := by
          intro d hd
          rcases List.mem_cons.1 hd with h3 | h3
          · rw [h3]; exact hword
          · exact hrun_nw d h3
        rw [colonGood_append_nonword _ _ hrun2]
        exact colonGood_subTrailWs_aux n _ (by omega) hgX
    · rw [if_neg hht]
      by_cases hw : wordChar c
      · by_cases hsc : startsColon rest
        · have hshape := startsColon_shape rest hsc
          rw [hshape] at h
          rw [colonGood_word_colon c rest.tail hw] at h
          have hsub : subTrailWs rest = ':' :: subTrailWs rest.tail := by
            conv_lhs => rw [hshape]
            rw [subTrailWs_cons, if_neg (show ¬ htChar ':' = true by decide)]
          rw [hsub]
          rw [colonGood_word_colon c (subTrailWs rest.tail) hw]
          by_cases h0 : rest.tail.isEmpty
          · rw [List.isEmpty_iff] at h0
            rw [h0, show subTrailWs [] = [] from rfl]
            rfl
          · by_cases h1 : rest.tail = [' ']
            · rw [h1, show subTrailWs [' '] = [' '] from rfl]
              rfl
            · rw [if_neg h0, if_neg h1] at h
              by_cases h2 : rest.tail.head? = some ' '
              · rw [if_pos h2] at h
                rw [Bool.and_eq_true] at h
                cases hr : rest.tail with
                | nil => rw [hr] at h0; simp at h0
                | cons a tt =>
                  have ha : a = ' ' := by
                    rw [hr, List.head?_cons] at h2
                    simpa using h2
                  subst ha
                  cases htt : tt with
                  | nil =>
                    exfalso
                    rw [hr, htt] at h1
                    exact h1 rfl
                  | cons d r4 =>
                    subst htt
                    have hdws : pyWs d = false := by
                      have := h.1
                      rw [hr] at this
                      simpa using this
                    have hgood : colonGood (d :: r4) = true := by
                      have := h.2
                      rw [hr] at this
                      simpa using this
                    have hstep : subTrailWs (' ' :: d :: r4) = ' ' :: subTrailWs (d :: r4) := by
                      rw [subTrailWs_cons, if_pos (show htChar ' ' = true by decide)]
                      have hdnh : htChar d = false := not_ws_not_ht d hdws
                      have hdw2 : (d :: r4).dropWhile htChar = d :: r4 :=
                        List.dropWhile_cons_of_neg (by simp [hdnh])
                      rw [hdw2]
                      rw [if_neg (show ¬ startsNl (d :: r4) = true by
                        cases hx : startsNl (d :: r4) with
                        | false => simp
                        | true =>
                          have := startsNl_shape _ hx
                          have hd : d = '\n' := by injection this
                          rw [hd] at hdws
                          exact absurd hdws (by decide))]
                      rw [show (d :: r4).takeWhile htChar = [] from
                        List.takeWhile_cons_of_neg (by simp [hdnh])]
                      rfl
                    have hstep2 : subTrailWs (d :: r4) = d :: subTrailWs r4 := by
                      rw [subTrailWs_cons, if_neg (by simp [not_ws_not_ht d hdws])]
                    rw [hstep, hstep2]
                    rw [if_neg (show ¬ ((' ' :: d :: subTrailWs r4).isEmpty = true) by simp),
                      if_neg (show ¬ (' ' :: d :: subTrailWs r4 = [' ']) by simp),
                      if_pos (show (' ' :: d :: subTrailWs r4).head? = some ' ' from rfl)]
                    rw [Bool.and_eq_true]
                    constructor
                    · simp [hdws]
                    · have hlen2 : (d :: r4).length ≤ n := by
                        have h3 := congrArg List.length hshape
                        have h4 := congrArg List.length hr
                        simp only [List.length_cons] at h3 h4 hn ⊢
                        omega
                      have := colonGood_subTrailWs_aux n (d :: r4) hlen2 hgood
                      rw [hstep2] at this
                      simpa using this
              · rw [if_neg h2] at h
                simp at h
        · rw [colonGood_word_nocolon c rest hw (by simpa using hsc), Bool.and_eq_true] at h
          have hhead : (subTrailWs rest).head? = rest.head? ∨
              (subTrailWs rest).head? = some '\n' := by
            cases hrr : rest with
            | nil => left; rfl
            | cons a t =>
              rcases subTrailWs_head_or a t with h3 | h3
              · left
                rw [h3]
                rfl
              · right
                exact h3
          have hscs : startsColon (subTrailWs rest) = false := by
            cases hx : startsColon (subTrailWs rest) with
            | false => rfl
            | true =>
              rw [startsColon_head] at hx
              rcases hhead with h3 | h3
              · rw [h3] at hx
                rw [← startsColon_head] at hx
                rw [(by simpa using hsc : startsColon rest = false)] at hx
                exact hx.symm
              · rw [h3] at hx
                simp at hx
          rw [colonGood_word_nocolon c (subTrailWs rest) hw hscs, Bool.and_eq_true]
          constructor
          · have := startsColon_eq_of_head ((subTrailWs rest).dropWhile pyWs)
              (rest.dropWhile pyWs) (subTrailWs_fnw rest)
            rw [this]
            exact h.1
          · exact colonGood_subTrailWs_aux n rest hlen h.2
      · rw [colonGood_not_word c _ (by simpa using hw)]
        rw [colonGood_not_word c rest (by simpa using hw)] at h
        exact colonGood_subTrailWs_aux n rest hlen h

/-- The trailing-blank pass preserves the colon structure. -/
theorem colonGood_subTrailWs (l : Str) (h : colonGood l = true) :
    colonGood (subTrailWs l) = true :=
  colonGood_subTrailWs_aux l.length l le_rfl h

/-- The newline-collapsing pass preserves the colon structure. -/
theorem colonGood_collapseNl_aux :
    ∀ (n : Nat) (l : Str), l.length ≤ n → colonGood l = true →
      colonGood (collapseNl l) = true
  | _, [], _, _ => colonGood_nil
  | 0, c :: rest, hn, _ => by simp at hn
  | n + 1, c :: rest, hn, h => by
    have hlen : rest.length ≤ n := by simp at hn; omega
    have hd1 := dropWhile_len_le (fun d => decide (d = '\n')) rest
    rw [collapseNl_cons]
    by_cases hnl : c = '\n'
    · have hword : wordChar c = false := by rw [hnl]; decide
      have hgrest : colonGood rest = true := by
        rw [colonGood_not_word c rest hword] at h
        exact h
      have hrun_nw : ∀ d ∈ rest.takeWhile (fun d => d = '\n'), wordChar d = false := by
        intro d hd
        have := List.mem_takeWhile_imp hd
        have hd2 : d = '\n' := by simpa using this
        rw [hd2]
        decide
      have hgX : colonGood (rest.dropWhile (fun d => d = '\n')) = true := by
        conv at hgrest => rw [← List.takeWhile_append_dropWhile (fun d => decide (d = '\n')) rest]
        rw [colonGood_append_nonword _ _ hrun_nw] at hgrest
        exact hgrest
      rw [if_pos hnl]
      by_cases h2 : 2 ≤ (rest.takeWhile (fun d => d = '\n')).length
      · rw [if_pos h2]
        rw [colonGood_not_word '\n' _ (by decide), colonGood_not_word '\n' _ (by decide)]
        exact colonGood_collapseNl_aux n _ (by omega) hgX
      · rw [if_neg h2]
        have hrun2 : ∀ d ∈ c :: rest.takeWhile (fun d => d = '\n'), wordChar d = false := by
          intro d hd
          rcases List.mem_cons.1 hd with h3 | h3
          · rw [h3, hnl]; decide
          · exact hrun_nw d h3
        rw [colonGood_append_nonword _ _ hrun2]
        exact colonGood_collapseNl_aux n _ (by omega) hgX
    · rw [if_neg hnl]
      by_cases hw : wordChar c
      · by_cases hsc : startsColon rest
        · have hshape := startsColon_shape rest hsc
          rw [hshape] at h
          rw [colonGood_word_colon c rest.tail hw] at h
          have hsub : collapseNl rest = ':' :: collapseNl rest.tail := by
            conv_lhs => rw [hshape]
            rw [collapseNl_cons, if_neg (show ¬ (':' = '\n') by decide)]
          rw [hsub]
          rw [colonGood_word_colon c (collapseNl rest.tail) hw]
          by_cases h0 : rest.tail.isEmpty
          · rw [List.isEmpty_iff] at h0
            rw [h0, show collapseNl [] = [] from rfl]
            rfl
          · by_cases h1 : rest.tail = [' ']
            · rw [h1, show collapseNl [' '] = [' '] from rfl]
              rfl
            · rw [if_neg h0, if_neg h1] at h
              by_cases h2 : rest.tail.head? = some ' '
              · rw [if_pos h2] at h
                rw [Bool.and_eq_true] at h
                cases hr : rest.tail with
                | nil => rw [hr] at h0; simp at h0
                | cons a tt =>
                  have ha : a = ' ' := by
                    rw [hr, List.head?_cons] at h2
                    simpa using h2
                  subst ha
                  cases htt : tt with
                  | nil =>
                    exfalso
                    rw [hr, htt] at h1
                    exact h1 rfl
                  | cons d r4 =>
                    subst htt
                    have hdws : pyWs d = false := by
                      have := h.1
                      rw [hr] at this
                      simpa using this
                    have hgood : colonGood (d :: r4) = true := by
                      have := h.2
                      rw [hr] at this
                      simpa using this
                    have hdnn : ¬ (d = '\n') := by
                      intro hd
                      rw [hd] at hdws
                      exact absurd hdws (by decide)
                    have hstep : collapseNl (' ' :: d :: r4) = ' ' :: collapseNl (d :: r4) := by
                      rw [collapseNl_cons, if_neg (show ¬ (' ' = '\n') by decide)]
                    have hstep2 : collapseNl (d :: r4) = d :: collapseNl r4 := by
                      rw [collapseNl_cons, if_neg hdnn]
                    rw [hstep, hstep2]
                    rw [if_neg (show ¬ ((' ' :: d :: collapseNl r4).isEmpty = true) by simp),
                      if_neg (show ¬ (' ' :: d :: collapseNl r4 = [' ']) by simp),
                      if_pos (show (' ' :: d :: collapseNl r4).head? = some ' ' from rfl)]
                    rw [Bool.and_eq_true]
                    constructor
                    · simp [hdws]
                    · have hlen2 : (d :: r4).length ≤ n := by
                        have h3 := congrArg List.length hshape
                        have h4 := congrArg List.length hr
                        simp only [List.length_cons] at h3 h4 hn ⊢
                        omega
                      have := colonGood_collapseNl_aux n (d :: r4) hlen2 hgood
                      rw [hstep2] at this
                      simpa using this
              · rw [if_neg h2] at h
                simp at h
        · rw [colonGood_word_nocolon c rest hw (by simpa using hsc), Bool.and_eq_true] at h
          have hscs : startsColon (collapseNl rest) = false := by
            rw [startsColon_eq_of_head (collapseNl rest) rest (collapseNl_head rest)]
            simpa using hsc
          rw [colonGood_word_nocolon c (collapseNl rest) hw hscs, Bool.and_eq_true]
          constructor
          · have := startsColon_eq_of_head ((collapseNl rest).dropWhile pyWs)
              (rest.dropWhile pyWs) (collapseNl_fnw rest)
            rw [this]
            exact h.1
          · exact colonGood_collapseNl_aux n rest hlen h.2
      · rw [colonGood_not_word c _ (by simpa using hw)]
        rw [colonGood_not_word c rest (by simpa using hw)] at h
        exact colonGood_collapseNl_aux n rest hlen h

/-- The newline-collapsing pass preserves the colon structure. -/
theorem colonGood_collapseNl (l : Str) (h : colonGood l = true) :
    colonGood (collapseNl l) = true :=
  colonGood_collapseNl_aux l.length l le_rfl h

/-- Removing an all-whitespace suffix preserves the colon structure,
provided the remaining part does not end in whitespace. -/
theorem colonGood_dropTrail_aux :
    ∀ (n : Nat) (u v : Str), u.length ≤ n → (∀ c ∈ v, pyWs c = true) →
      (∀ x, u.getLast? = some x → pyWs x = false) →
      colonGood (u ++ v) = true → colonGood u = true
  | _, [], _, _, _, _, _ => colonGood_nil
  | 0, c :: u, v, hn, _, _, _ => by simp at hn
  | n + 1, c :: u0, v, hn, hv, hl, h => by
    have hlen : u0.length ≤ n := by simp at hn; omega
    by_cases hw : wordChar c
    · cases u0 with
      | nil =>
        rw [colonGood_word_nocolon c [] hw rfl]
        rw [show List.dropWhile pyWs [] = [] from rfl,
          show startsColon [] = false from rfl, colonGood_nil]
        rfl
      | cons b w =>
        by_cases hb : b = ':'
        · subst hb
          simp only [List.cons_append] at h
          rw [colonGood_word_colon c (w ++ v) hw] at h
          rw [colonGood_word_colon c w hw]
          cases w with
          | nil => rfl
          | cons b2 w2 =>
            by_cases hb2 : b2 = ' '
            · subst hb2
              cases w2 with
              | nil => rfl
              | cons d w3 =>
                simp only [List.cons_append] at h
                rw [if_neg (show ¬ ((' ' :: d :: (w3 ++ v)).isEmpty = true) by simp),
                  if_neg (show ¬ (' ' :: d :: (w3 ++ v) = [' ']) by simp),
                  if_pos (show (' ' :: d :: (w3 ++ v)).head? = some ' ' from rfl)] at h
                rw [Bool.and_eq_true] at h
                rw [if_neg (show ¬ ((' ' :: d :: w3).isEmpty = true) by simp),
                  if_neg (show ¬ (' ' :: d :: w3 = [' ']) by simp),
                  if_pos (show (' ' :: d :: w3).head? = some ' ' from rfl)]
                rw [Bool.and_eq_true]
                constructor
                · simpa using h.1
                · have hl2 : ∀ x, (d :: w3).getLast? = some x → pyWs x = false := by
                    intro x hx
                    apply hl
                    rw [List.getLast?_cons_cons, List.getLast?_cons_cons,
                      List.getLast?_cons_cons]
                    exact hx
                  have hlen2 : (d :: w3).length ≤ n := by
                    simp only [List.length_cons] at hn ⊢
                    omega
                  have h2 : colonGood ((d :: w3) ++ v) = true := by
                    simp only [List.cons_append]
                    exact h.2
                  have := colonGood_dropTrail_aux n (d :: w3) v hlen2 hv hl2 h2
                  simpa using this
            · exfalso
              simp only [List.cons_append] at h
              rw [if_neg (show ¬ ((b2 :: (w2 ++ v)).isEmpty = true) by simp),
                if_neg (show ¬ (b2 :: (w2 ++ v) = [' ']) by simp [hb2]),
                if_neg (show ¬ ((b2 :: (w2 ++ v)).head? = some ' ') by simp [hb2])] at h
              simp at h
        · have hscu : startsColon (b :: w) = false := by
            cases hx : startsColon (b :: w) with
            | false => rfl
            | true =>
              have := (startsColon_head (b :: w)).1 hx
              simp at this
              exact absurd this hb
          have hscuv : startsColon ((b :: w) ++ v) = false := by
            rw [startsColon_eq_of_head ((b :: w) ++ v) (b :: w) (by simp)]
            exact hscu
          rw [List.cons_append] at h
          rw [colonGood_word_nocolon c _ hw hscuv, Bool.and_eq_true] at h
          rw [colonGood_word_nocolon c (b :: w) hw hscu, Bool.and_eq_true]
          have hl2 : ∀ x, (b :: w).getLast? = some x → pyWs x = false := by
            intro x hx
            apply hl
            rw [List.getLast?_cons_cons]
            exact hx
          constructor
          · have hdw : ((b :: w) ++ v).dropWhile pyWs =
                if ((b :: w).dropWhile pyWs).isEmpty then v.dropWhile pyWs
                else (b :: w).dropWhile pyWs ++ v := List.dropWhile_append
            by_cases he : ((b :: w).dropWhile pyWs).isEmpty
            · rw [List.isEmpty_iff] at he
              rw [he]
              rfl
            · rw [if_neg he] at hdw
              rw [hdw] at h
              have h1 := h.1
              cases hdd : (b :: w).dropWhile pyWs with
              | nil => rw [hdd] at he; simp at he
              | cons e t =>
                rw [hdd] at h1
                rw [startsColon_eq_of_head (e :: t) ((e :: t) ++ v) (by simp)]
                exact h1
          · exact colonGood_dropTrail_aux n (b :: w) v (by simpa using hn) hv hl2 h.2
    · rw [colonGood_not_word c u0 (by simpa using hw)]
      rw [List.cons_append, colonGood_not_word c _ (by simpa using hw)] at h
      have hl2 : ∀ x, u0.getLast? = some x → pyWs x = false := by
        intro x hx
        apply hl
        cases u0 with
        | nil => simp at hx
        | cons b w =>
          rw [List.getLast?_cons_cons]
          exact hx
      exact colonGood_dropTrail_aux n u0 v hlen hv hl2 h

/-- The final `strip` preserves the colon structure. -/
theorem colonGood_pyStrip (l : Str) (h : colonGood l = true) :
    colonGood (pyStrip l) = true := by
  have hlead : colonGood (l.dropWhile pyWs) = true := by
    conv at h => rw [← List.takeWhile_append_dropWhile (p := pyWs) (l := l)]
    rw [colonGood_append_nonword _ _ (fun d hd =>
      ws_not_word d (List.mem_takeWhile_imp hd))] at h
    exact h
  set m := l.dropWhile pyWs with hm
  obtain ⟨t, hdec, hws⟩ := dropTrailWs_decomp m
  have hlast : ∀ x, (dropTrailWs m).getLast? = some x → pyWs x = false := by
    intro x hx
    unfold dropTrailWs at hx
    rw [List.getLast?_reverse] at hx
    have := List.head?_dropWhile_not pyWs m.reverse
    rw [hx] at this
    simpa using this
  have hrew : colonGood (dropTrailWs m ++ t) = true := by
    rw [← hdec]
    exact hlead
  exact colonGood_dropTrail_aux (dropTrailWs m).length (dropTrailWs m) t le_rfl hws hlast hrew

/-- A blank or tab is not a newline. -/
theorem ht_ne_nl (y : Char) (h : htChar y = true) : (y == '\n') = false := by
  unfold htChar at h
  rw [Bool.or_eq_true] at h
  cases hb : y == '\n' with
  | false => rfl
  | true =>
    have hy : y = '\n' := by
      have := beq_iff_eq.1 hb
      exact this
    rw [hy] at h
    rcases h with h | h <;> simp at h

/-- A string of blanks and tabs satisfies `noHtNl`. -/
theorem noHtNl_all_ht : ∀ l : Str, (∀ c ∈ l, htChar c = true) → noHtNl l = true
  | [], _ => rfl
  | x :: t, h => by
    rw [noHtNl_cons]
    refine ⟨noHtNl_all_ht t (fun c hc => h c (by simp [hc])), ?_⟩
    intro y hy
    have hyt : y ∈ t := List.mem_of_mem_head? hy
    rw [ht_ne_nl y (h y (by simp [hyt]))]
    rw [Bool.and_false]

/-- `noHtNl` glues along an append when the boundary pair is harmless. -/
theorem noHtNl_append_of :
    ∀ (a b : Str), noHtNl a = true → noHtNl b = true →
      (∀ x y, a.getLast? = some x → b.head? = some y →
        (htChar x && (y == '\n')) = false) →
      noHtNl (a ++ b) = true
  | [], b, _, hb, _ => hb
  | [x], b, _, hb, hab => by
    rw [List.singleton_append, noHtNl_cons]
    exact ⟨hb, fun y hy => hab x y rfl hy⟩
  | x :: x2 :: r, b, ha, hb, hab => by
    rw [List.cons_append, noHtNl_cons]
    constructor
    · apply noHtNl_append_of (x2 :: r) b (noHtNl_tail x _ ha) hb
      intro p q hp hq
      apply hab p q ?_ hq
      rw [List.getLast?_cons_cons]
      exact hp
    · intro y hy
      rw [List.cons_append, List.head?_cons] at hy
      cases hy
      exact ((noHtNl_cons x (x2 :: r)).1 ha).2 x2 rfl

/-- The head of `subTrailWs` applied to a string whose head is neither a
blank, a tab nor a newline is that same head. -/
theorem subTrailWs_nonNl_head (l : Str) (hnl : startsNl l = false)
    (hht : ∀ y, l.head? = some y → htChar y = false) :
    ∀ y, (subTrailWs l).head? = some y → (y == '\n') = false := by
  intro y hy
  cases l with
  | nil => simp [show subTrailWs [] = [] from rfl] at hy
  | cons e t =>
    have he : htChar e = false := hht e rfl
    rw [subTrailWs_cons, if_neg (by simp [he])] at hy
    rw [List.head?_cons] at hy
    have hye : y = e := (by simpa using hy : e = y).symm
    subst hye
    cases hb : y == '\n' with
    | false => rfl
    | true =>
      have : y = '\n' := beq_iff_eq.1 hb
      rw [this] at hnl
      exact absurd hnl (by simp [startsNl])

/-- The trailing-blank pass establishes its own invariant: a blank or tab
is never immediately followed by a newline in its output. -/
theorem noHtNl_subTrailWs_aux :
    ∀ (n : Nat) (l : Str), l.length ≤ n → noHtNl (subTrailWs l) = true
  | _, [], _ => rfl
  | 0, c :: rest, hn => by simp at hn
  | n + 1, c :: rest, hn => by
    have hlen : rest.length ≤ n := by simp at hn; omega
    have hd1 := dropWhile_len_le htChar rest
    rw [subTrailWs_cons]
    by_cases hht : htChar c
    · rw [if_pos hht]
      by_cases hnl : startsNl (rest.dropWhile htChar)
      · rw [if_pos hnl]
        rw [noHtNl_cons]
        have ht2 : ((rest.dropWhile htChar).tail).length ≤ n := by
          have : ((rest.dropWhile htChar).tail).length ≤ (rest.dropWhile htChar).length := by
            cases rest.dropWhile htChar <;> simp
          omega
        refine ⟨noHtNl_subTrailWs_aux n _ ht2, ?_⟩
        intro y _
        rw [show htChar '\n' = false from rfl]
        rfl
      · rw [if_neg hnl]
        apply noHtNl_append_of
        · apply noHtNl_all_ht
          intro d hd
          rcases List.mem_cons.1 hd with h3 | h3
          · rw [h3]; exact hht
          · exact List.mem_takeWhile_imp h3
        · exact noHtNl_subTrailWs_aux n _ (by omega)
        · intro p q _ hq
          rw [subTrailWs_nonNl_head (rest.dropWhile htChar) (by simpa using hnl)
            (fun y hy => by
              have := List.head?_dropWhile_not htChar rest
              rw [hy] at this
              simpa using this) q hq]
          rw [Bool.and_false]
    · rw [if_neg hht]
      rw [noHtNl_cons]
      refine ⟨noHtNl_subTrailWs_aux n rest hlen, ?_⟩
      intro y _
      rw [(by simpa using hht : htChar c = false)]
      rfl

/-- The trailing-blank pass establishes its own invariant. -/
theorem noHtNl_subTrailWs (l : Str) : noHtNl (subTrailWs l) = true :=
  noHtNl_subTrailWs_aux l.length l le_rfl

/-- `noTripleNl` glues along an append whose right part does not start
with a newline. -/
theorem noTripleNl_append_headSafe :
    ∀ (a b : Str), noTripleNl a = true → noTripleNl b = true →
      (∀ y, b.head? = some y → (y == '\n') = false) →
      noTripleNl (a ++ b) = true
  | [], b, _, hb, _ => hb
  | [x], b, _, hb, hh => by
    rw [List.singleton_append, noTripleNl_cons]
    refine ⟨hb, ?_⟩
    intro y z r hr
    have : b.head? = some y := by rw [hr]; rfl
    rw [hh y this]
    rw [Bool.and_false, Bool.false_and]
  | [x1, x2], b, _, hb, hh => by
    have h2 : noTripleNl (x2 :: b) = true := by
      rw [noTripleNl_cons]
      refine ⟨hb, ?_⟩
      intro y z r hr
      have : b.head? = some y := by rw [hr]; rfl
      rw [hh y this]
      rw [Bool.and_false, Bool.false_and]
    show noTripleNl (x1 :: x2 :: b) = true
    rw [noTripleNl_cons]
    refine ⟨h2, ?_⟩
    intro y z r hr
    have hy : x2 = y := by injection hr
    have : b.head? = some z := by
      have := hr
      injection this with h3 h4
      rw [h4]; rfl
    rw [hh z this]
    rw [Bool.and_false]
  | x1 :: x2 :: x3 :: r, b, ha, hb, hh => by
    rw [List.cons_append, noTripleNl_cons]
    constructor
    · exact noTripleNl_append_headSafe (x2 :: x3 :: r) b (noTripleNl_tail x1 _ ha) hb hh
    · intro y z t ht
      simp only [List.cons_append, List.cons.injEq] at ht
      obtain ⟨h2, h3, _⟩ := ht
      subst h2
      subst h3
      exact ((noTripleNl_cons x1 (x2 :: x3 :: r)).1 ha).2 x2 x3 r rfl

/-- The newline-collapsing pass establishes its own invariant: its output
never holds three consecutive newlines. -/
theorem noTripleNl_collapseNl_aux :
    ∀ (n : Nat) (l : Str), l.length ≤ n → noTripleNl (collapseNl l) = true
  | _, [], _ => rfl
  | 0, c :: rest, hn => by simp at hn
  | n + 1, c :: rest, hn => by
    have hlen : rest.length ≤ n := by simp at hn; omega
    have hd1 := dropWhile_len_le (fun d => decide (d = '\n')) rest
    rw [collapseNl_cons]
    have hXhead : ∀ y, ((collapseNl (rest.dropWhile (fun d => d = '\n'))).head? = some y) →
        (y == '\n') = false := by
      intro y hy
      rw [collapseNl_head] at hy
      have := List.head?_dropWhile_not (fun d => decide (d = '\n')) rest
      rw [hy] at this
      simpa using this
    by_cases hnl : c = '\n'
    · rw [if_pos hnl]
      by_cases h2 : 2 ≤ (rest.takeWhile (fun d => d = '\n')).length
      · rw [if_pos h2]
        have hinner : noTripleNl ('\n' :: collapseNl (rest.dropWhile (fun d => d = '\n'))) = true := by
          rw [noTripleNl_cons]
          refine ⟨noTripleNl_collapseNl_aux n _ (by omega), ?_⟩
          intro y z r hr
          have : (collapseNl (rest.dropWhile (fun d => d = '\n'))).head? = some y := by
            rw [hr]; rfl
          rw [hXhead y this]
          rw [Bool.and_false, Bool.false_and]
        rw [noTripleNl_cons]
        refine ⟨hinner, ?_⟩
        intro y z r hr
        have : (collapseNl (rest.dropWhile (fun d => d = '\n'))).head? = some z := by
          injection hr with h3 h4
          rw [h4]; rfl
        rw [hXhead z this]
        rw [Bool.and_false]
      · rw [if_neg h2]
        apply noTripleNl_append_headSafe
        · cases hrun : rest.takeWhile (fun d => d = '\n') with
          | nil => rfl
          | cons r1 rr =>
            cases hrr : rr with
            | nil => rfl
            | cons r2 rr2 =>
              exfalso
              apply h2
              rw [hrun, hrr]
              simp
        · exact noTripleNl_collapseNl_aux n _ (by omega)
        · exact hXhead
    · rw [if_neg hnl]
      rw [noTripleNl_cons]
      refine ⟨noTripleNl_collapseNl_aux n rest hlen, ?_⟩
      intro y z r hr
      rw [(by simpa using hnl : (c == '\n') = false)]
      rw [Bool.false_and, Bool.false_and]

/-- The newline-collapsing pass establishes its own invariant. -/
theorem noTripleNl_collapseNl (l : Str) : noTripleNl (collapseNl l) = true :=
  noTripleNl_collapseNl_aux l.length l le_rfl

/-- The final `strip` establishes its own invariant: no whitespace at
either end of its output. -/
theorem strippedStr_pyStrip (l : Str) : strippedStr (pyStrip l) = true := by
  unfold strippedStr
  rw [Bool.and_eq_true]
  constructor
  · cases hh : (pyStrip l).head? with
    | none => rfl
    | some c =>
      unfold pyStrip at hh
      obtain ⟨t, hdec, _⟩ := dropTrailWs_decomp (l.dropWhile pyWs)
      have hh2 : (l.dropWhile pyWs).head? = some c := by
        rw [hdec]
        cases hdd : dropTrailWs (l.dropWhile pyWs) with
        | nil => rw [hdd] at hh; simp at hh
        | cons e u =>
          rw [hdd] at hh
          rw [List.cons_append, List.head?_cons]
          simpa using hh
      have := List.head?_dropWhile_not pyWs l
      rw [hh2] at this
      simpa using this
  · cases hg : (pyStrip l).getLast? with
    | none => rfl
    | some c =>
      unfold pyStrip dropTrailWs at hg
      rw [List.getLast?_reverse] at hg
      have := List.head?_dropWhile_not pyWs (l.dropWhile pyWs).reverse
      rw [hg] at this
      simpa using this

/-- A string without blanks and tabs satisfies `noHtNl`. -/
theorem noHtNl_of_no_ht : ∀ l : Str, (∀ c ∈ l, htChar c = false) → noHtNl l = true
  | [], _ => rfl
  | x :: t, h => by
    rw [noHtNl_cons]
    refine ⟨noHtNl_of_no_ht t (fun c hc => h c (by simp [hc])), ?_⟩
    intro y _
    rw [h x (by simp)]
    rfl

/-- The newline-collapsing pass preserves the blank-newline invariant. -/
theorem noHtNl_collapseNl_aux :
    ∀ (n : Nat) (l : Str), l.length ≤ n → noHtNl l = true →
      noHtNl (collapseNl l) = true
  | _, [], _, _ => rfl
  | 0, c :: rest, hn, _ => by simp at hn
  | n + 1, c :: rest, hn, h => by
    have hlen : rest.length ≤ n := by simp at hn; omega
    have hd1 := dropWhile_len_le (fun d => decide (d = '\n')) rest
    have hX : noHtNl (rest.dropWhile (fun d => d = '\n')) = true := by
      obtain ⟨k, hk⟩ := dropWhile_eq_drop (fun d => decide (d = '\n')) rest
      rw [hk]
      exact noHtNl_drop k rest (noHtNl_tail c rest h)
    rw [collapseNl_cons]
    by_cases hnl : c = '\n'
    · rw [if_pos hnl]
      have hC : noHtNl (collapseNl (rest.dropWhile (fun d => d = '\n'))) = true :=
        noHtNl_collapseNl_aux n _ (by omega) hX
      by_cases h2 : 2 ≤ (rest.takeWhile (fun d => d = '\n')).length
      · rw [if_pos h2]
        rw [noHtNl_cons]
        refine ⟨?_, ?_⟩
        · rw [noHtNl_cons]
          refine ⟨hC, ?_⟩
          intro y _
          rfl
        · intro y _
          rfl
      · rw [if_neg h2]
        have hrun_nonht : ∀ d ∈ c :: rest.takeWhile (fun d => d = '\n'), htChar d = false := by
          intro d hd
          rcases List.mem_cons.1 hd with h3 | h3
          · rw [h3, hnl]; rfl
          · have : d = '\n' := by simpa using List.mem_takeWhile_imp h3
            rw [this]; rfl
        apply noHtNl_append_of
        · exact noHtNl_of_no_ht _ hrun_nonht
        · exact hC
        · intro p q hp _
          have hpmem : p ∈ c :: rest.takeWhile (fun d => d = '\n') := by
            have := List.mem_getLast?_eq_getLast hp
            obtain ⟨h4, h5⟩ := this
            rw [h5]
            exact List.getLast_mem h4
          rw [hrun_nonht p hpmem]
          rfl
    · rw [if_neg hnl]
      rw [noHtNl_cons]
      refine ⟨noHtNl_collapseNl_aux n rest hlen (noHtNl_tail c rest h), ?_⟩
      intro y hy
      rw [collapseNl_head] at hy
      exact ((noHtNl_cons c rest).1 h).2 y hy

/-- The newline-collapsing pass preserves the blank-newline invariant. -/
theorem noHtNl_collapseNl (l : Str) (h : noHtNl l = true) :
    noHtNl (collapseNl l) = true :=
  noHtNl_collapseNl_aux l.length l le_rfl h

/-- A prefix-of-a-suffix extraction: `pyStrip` cuts the string to a
contiguous inner segment, so both scan invariants survive it. -/
theorem noHtNl_pyStrip (l : Str) (h : noHtNl l = true) :
    noHtNl (pyStrip l) = true := by
  have h1 : noHtNl (l.dropWhile pyWs) = true := by
    obtain ⟨k, hk⟩ := dropWhile_eq_drop pyWs l
    rw [hk]
    exact noHtNl_drop k l h
  obtain ⟨t, hdec, _⟩ := dropTrailWs_decomp (l.dropWhile pyWs)
  unfold pyStrip
  apply noHtNl_of_append (dropTrailWs (l.dropWhile pyWs)) t
  rw [← hdec]
  exact h1

/-- The final `strip` preserves the triple-newline invariant. -/
theorem noTripleNl_pyStrip (l : Str) (h : noTripleNl l = true) :
    noTripleNl (pyStrip l) = true := by
  have h1 : noTripleNl (l.dropWhile pyWs) = true := by
    obtain ⟨k, hk⟩ := dropWhile_eq_drop pyWs l
    rw [hk]
    exact noTripleNl_drop k l h
  obtain ⟨t, hdec, _⟩ := dropTrailWs_decomp (l.dropWhile pyWs)
  unfold pyStrip
  apply noTripleNl_of_append (dropTrailWs (l.dropWhile pyWs)) t
  rw [← hdec]
  exact h1

/-- On a string with no blank-before-newline, the second pass is the
identity. -/
theorem subTrailWs_fix_aux :
    ∀ (n : Nat) (l : Str), l.length ≤ n → noHtNl l = true → subTrailWs l = l
  | _, [], _, _ => rfl
  | 0, c :: rest, hn, _ => by simp at hn
  | n + 1, c :: rest, hn, h => by
    have hlen : rest.length ≤ n := by simp at hn; omega
    have hd1 := dropWhile_len_le htChar rest
    rw [subTrailWs_cons]
    by_cases hht : htChar c
    · rw [if_pos hht]
      by_cases hnl : startsNl (rest.dropWhile htChar)
      · exfalso
        cases hX : rest.dropWhile htChar with
        | nil =>
          rw [hX] at hnl
          exact absurd hnl (by simp [startsNl])
        | cons e Xt =>
          have he : e = '\n' := by
            rw [hX] at hnl
            have h4 := congrArg List.head? (startsNl_shape _ hnl)
            simpa using h4
          subst he
          have hane : (c :: rest.takeWhile htChar) ≠ [] := by simp
          have h2 : c :: rest = (c :: rest.takeWhile htChar) ++ ('\n' :: Xt) := by
            conv_lhs => rw [show c :: rest =
              (c :: rest.takeWhile htChar) ++ rest.dropWhile htChar from by
                rw [List.cons_append, List.takeWhile_append_dropWhile], hX]
          have h3 : c :: rest = (c :: rest.takeWhile htChar).dropLast ++
              ((c :: rest.takeWhile htChar).getLast hane) :: '\n' :: Xt := by
            rw [h2]
            conv_lhs => rw [← List.dropLast_append_getLast hane]
            rw [List.append_assoc, List.singleton_append]
          have hpair := noHtNl_pair (c :: rest.takeWhile htChar).dropLast
            ((c :: rest.takeWhile htChar).getLast hane) '\n' Xt (by rw [← h3]; exact h)
          have hx_ht : htChar ((c :: rest.takeWhile htChar).getLast hane) = true := by
            have hmem := List.getLast_mem hane
            rcases List.mem_cons.1 hmem with h4 | h4
            · rw [h4]; exact hht
            · exact List.mem_takeWhile_imp h4
          rw [hx_ht] at hpair
          simpa using hpair
      · rw [if_neg hnl]
        have hXinv : noHtNl (rest.dropWhile htChar) = true := by
          obtain ⟨k, hk⟩ := dropWhile_eq_drop htChar rest
          rw [hk]
          exact noHtNl_drop k rest (noHtNl_tail c rest h)
        rw [subTrailWs_fix_aux n _ (by omega) hXinv]
        rw [List.cons_append, List.takeWhile_append_dropWhile]
    · rw [if_neg hht, subTrailWs_fix_aux n rest hlen (noHtNl_tail c rest h)]

/-- On a string with no blank-before-newline, the second pass is the
identity. -/
theorem subTrailWs_fix (l : Str) (h : noHtNl l = true) : subTrailWs l = l :=
  subTrailWs_fix_aux l.length l le_rfl h

/-- On a string with no triple newline, the third pass is the identity. -/
theorem collapseNl_fix_aux :
    ∀ (n : Nat) (l : Str), l.length ≤ n → noTripleNl l = true → collapseNl l = l
  | _, [], _, _ => rfl
  | 0, c :: rest, hn, _ => by simp at hn
  | n + 1, c :: rest, hn, h => by
    have hlen : rest.length ≤ n := by simp at hn; omega
    have hd1 := dropWhile_len_le (fun d => decide (d = '\n')) rest
    rw [collapseNl_cons]
    by_cases hnl : c = '\n'
    · rw [if_pos hnl]
      by_cases h2 : 2 ≤ (rest.takeWhile (fun d => d = '\n')).length
      · exfalso
        cases hrun : rest.takeWhile (fun d => d = '\n') with
        | nil => rw [hrun] at h2; simp at h2
        | cons r1 rr =>
          cases hrr : rr with
          | nil => rw [hrun, hrr] at h2; simp at h2
          | cons r2 rr2 =>
            have hr1 : r1 = '\n' := by
              have : r1 ∈ rest.takeWhile (fun d => decide (d = '\n')) := by
                rw [hrun]; simp
              simpa using List.mem_takeWhile_imp this
            have hr2 : r2 = '\n' := by
              have : r2 ∈ rest.takeWhile (fun d => decide (d = '\n')) := by
                rw [hrun, hrr]; simp
              simpa using List.mem_takeWhile_imp this
            have hshape : rest = r1 :: r2 :: (rr2 ++ rest.dropWhile (fun d => decide (d = '\n'))) := by
              conv_lhs => rw [← List.takeWhile_append_dropWhile
                (p := fun d => decide (d = '\n')) (l := rest), hrun, hrr]
              rw [List.cons_append, List.cons_append]
            have hwin := ((noTripleNl_cons c rest).1 h).2 r1 r2 _ hshape
            rw [hnl, hr1, hr2] at hwin
            simpa using hwin
      · rw [if_neg h2]
        have hXinv : noTripleNl (rest.dropWhile (fun d => d = '\n')) = true := by
          obtain ⟨k, hk⟩ := dropWhile_eq_drop (fun d => decide (d = '\n')) rest
          rw [hk]
          exact noTripleNl_drop k rest (noTripleNl_tail c rest h)
        rw [collapseNl_fix_aux n _ (by omega) hXinv]
        rw [List.cons_append, List.takeWhile_append_dropWhile]
    · rw [if_neg hnl, collapseNl_fix_aux n rest hlen (noTripleNl_tail c rest h)]

/-- On a string with no triple newline, the third pass is the identity. -/
theorem collapseNl_fix (l : Str) (h : noTripleNl l = true) : collapseNl l = l :=
  collapseNl_fix_aux l.length l le_rfl h

/-- On a string with no whitespace at either end, `strip` is the
identity. -/
theorem pyStrip_fix (l : Str) (h : strippedStr l = true) : pyStrip l = l := by
  unfold strippedStr at h
  rw [Bool.and_eq_true] at h
  have h1 : l.dropWhile pyWs = l := by
    cases l with
    | nil => rfl
    | cons c rest =>
      have hc := h.1
      simp only [List.head?_cons] at hc
      apply List.dropWhile_cons_of_neg
      simpa using hc
  have h2 : l.reverse.dropWhile pyWs = l.reverse := by
    cases hr : l.reverse with
    | nil => rfl
    | cons c rest =>
      have hlast : l.getLast? = some c := by
        rw [← List.head?_reverse, hr]
        rfl
      have hc := h.2
      rw [hlast] at hc
      apply List.dropWhile_cons_of_neg
      simpa using hc
  unfold pyStrip dropTrailWs
  rw [h1, h2, List.reverse_reverse]

/-- A trailing blank never survives `strip`. -/
theorem dropTrailWs_append_blank (m : Str) :
    dropTrailWs (m ++ [' ']) = dropTrailWs m := by
  unfold dropTrailWs
  rw [List.reverse_append, show ([' '] : Str).reverse = [' '] from rfl,
    List.singleton_append, List.dropWhile_cons_of_pos (by decide)]

/-- A trailing blank never survives `strip`. -/
theorem pyStrip_append_blank (l : Str) : pyStrip (l ++ [' ']) = pyStrip l := by
  unfold pyStrip
  have hdw : (l ++ [' ']).dropWhile pyWs =
      if (l.dropWhile pyWs).isEmpty then ([' '] : Str).dropWhile pyWs
      else l.dropWhile pyWs ++ [' '] := List.dropWhile_append
  by_cases he : (l.dropWhile pyWs).isEmpty
  · rw [hdw, if_pos he]
    rw [List.isEmpty_iff] at he
    rw [he]
    rfl
  · rw [hdw, if_neg he, dropTrailWs_append_blank]

/-- C5: Text normalization is idempotent: for every string `x`,
`normalize_spaces (normalize_spaces x)` equals `normalize_spaces x`. -/
theorem C5_idempotent (x : Str) :
    normalize_spaces (normalize_spaces x) = normalize_spaces x := by
  have hcg : colonGood (normalize_spaces x) = true := by
    unfold normalize_spaces
    exact colonGood_pyStrip _ (colonGood_collapseNl _ (colonGood_subTrailWs _
      (colonGood_subColon x)))
  have hht : noHtNl (normalize_spaces x) = true := by
    unfold normalize_spaces
    exact noHtNl_pyStrip _ (noHtNl_collapseNl _ (noHtNl_subTrailWs _))
  have htr : noTripleNl (normalize_spaces x) = true := by
    unfold normalize_spaces
    exact noTripleNl_pyStrip _ (noTripleNl_collapseNl _)
  have hst : strippedStr (normalize_spaces x) = true := by
    unfold normalize_spaces
    exact strippedStr_pyStrip _
  conv_lhs => rw [normalize_spaces]
  rcases subColon_fix (normalize_spaces x) hcg with hfix | hfix
  · rw [hfix, subTrailWs_fix _ hht, collapseNl_fix _ htr, pyStrip_fix _ hst]
  · rw [hfix, subTrailWs_fix _ (noHtNl_append_nonNl ' ' rfl _ hht),
      collapseNl_fix _ (noTripleNl_append_nonNl ' ' rfl _ htr),
      pyStrip_append_blank, pyStrip_fix _ hst]

/-- C10: `normalize_spaces` does not preserve line structure: on the input
`"제목:\n값"` — whose first line ends with a word character followed by a
colon and whose next line is non-empty — the newline after the colon is
replaced by a single space, merging the two lines into `"제목: 값"`. -/
theorem C10_newline_merge :
    normalize_spaces "제목:\n값".data = "제목: 값".data ∧
      '\n' ∈ "제목:\n값".data ∧ '\n' ∉ normalize_spaces "제목:\n값".data := by
  refine ⟨by decide, by decide, by decide⟩

/-- Index-level reading of `colonGood`: after a word character and a colon
the string either ends, or carries exactly one space (possibly final). -/
theorem colonGood_index :
    ∀ (i : Nat) (l : Str), colonGood l = true → ∀ c, l[i]? = some c →
      wordChar c = true → l[i + 1]? = some ':' →
      l[i + 2]? = none ∨
        (l[i + 2]? = some ' ' ∧
          (l[i + 3]? = none ∨
            ∃ d, l[i + 3]? = some d ∧ pyWs d = false))
  | i, [], _, c, hc, _, _ => by simp at hc
  | 0, a :: rest, h, c, hc, hw, hcol => by
    have hac : a = c := by simpa using hc
    subst hac
    cases rest with
    | nil => simp at hcol
    | cons b r2 =>
      have hb : b = ':' := by simpa using hcol
      subst hb
      rw [colonGood_word_colon a r2 hw] at h
      by_cases h0 : r2.isEmpty
      · rw [List.isEmpty_iff] at h0
        rw [h0]
        left
        rfl
      · by_cases h1 : r2 = [' ']
        · rw [h1]
          right
          exact ⟨rfl, Or.inl rfl⟩
        · rw [if_neg h0, if_neg h1] at h
          by_cases h2 : r2.head? = some ' '
          · rw [if_pos h2] at h
            rw [Bool.and_eq_true] at h
            cases hr : r2 with
            | nil => rw [hr] at h0; simp at h0
            | cons b2 t =>
              have hb2 : b2 = ' ' := by
                rw [hr, List.head?_cons] at h2
                simpa using h2
              subst hb2
              right
              refine ⟨by simp, ?_⟩
              cases ht : t with
              | nil =>
                exfalso
                rw [hr, ht] at h1
                exact h1 rfl
              | cons d t2 =>
                right
                refine ⟨d, by simp, ?_⟩
                have := h.1
                rw [hr, ht] at this
                simpa using this
          · rw [if_neg h2] at h
            simp at h
  | i + 1, a :: rest, h, c, hc, hw, hcol => by
    have hgr := colonGood_tail a rest h
    have hrec := colonGood_index i rest hgr c (by simpa using hc) hw (by simpa using hcol)
    simpa using hrec

/-- C7 counterexample: the input `"a:"` holds a colon immediately preceded
by the Latin letter `a`, yet `normalize_spaces` returns `"a:"` — the final
`strip` removes the space the first pass added after the colon, so the
colon is followed by no space at all, refuting "followed by exactly one
space" as stated. -/
theorem C7_colon_spacing_cex :
    wordChar 'a' = true ∧ "a:".data[1]? = some ':' ∧
      normalize_spaces "a:".data = "a:".data ∧
      (normalize_spaces "a:".data)[2]? = none := by
  refine ⟨by decide, by decide, by decide, by decide⟩

/-- C7 (amended): in the output of `normalize_spaces`, a colon immediately
preceded by a word character (Latin alphanumeric or Hangul) is either
final, or followed by exactly one space: the next position holds a space
and the position after it is past the end or holds a non-whitespace
character.  The colon still directly follows the word character, so no
space is added before it. -/
theorem C7_colon_spacing (x : Str) (i : Nat) (c : Char)
    (hc : (normalize_spaces x)[i]? = some c) (hw : wordChar c = true)
    (hcol : (normalize_spaces x)[i + 1]? = some ':') :
    (normalize_spaces x)[i + 2]? = none ∨
      ((normalize_spaces x)[i + 2]? = some ' ' ∧
        ((normalize_spaces x)[i + 3]? = none ∨
          ∃ d, (normalize_spaces x)[i + 3]? = some d ∧ pyWs d = false)) := by
  have hcg : colonGood (normalize_spaces x) = true := by
    unfold normalize_spaces
    exact colonGood_pyStrip _ (colonGood_collapseNl _ (colonGood_subTrailWs _
      (colonGood_subColon x)))
  exact colonGood_index i (normalize_spaces x) hcg c hc hw hcol

/-- C7 witness: `"값:값"` normalizes to `"값: 값"`, and the amended
statement holds there at the colon position. -/
theorem C7_colon_spacing_witness :
    normalize_spaces "값:값".data = "값: 값".data ∧
      ((normalize_spaces "값:값".data)[2]? = none ∨
        ((normalize_spaces "값:값".data)[2]? = some ' ' ∧
          ((normalize_spaces "값:값".data)[3]? = none ∨
            ∃ d, (normalize_spaces "값:값".data)[3]? = some d ∧ pyWs d = false))) :=
  ⟨by decide, C7_colon_spacing "값:값".data 0 '값' (by decide) (by decide) (by decide)⟩
